import Mathlib

/-!
# Verification of the Lie-bracket basis-completion core

Shallow embedding of the repository's core (`src/lib/derivation.py`,
`src/lib/solver.py`, `src/lib/generator.py`) over an executable
multivariate-polynomial model:

* `Mon n` — monomials in `n` variables with the degrevlex order (the default
  term order of the polynomial-ring collaborator).
* `Poly n` — polynomials as unsorted term lists with semantic coefficient
  equality; `coeffP`, `suppP`, `lmP` (leading monomial), `ltermP`.
* `Deriv n` — a derivation given by its images on the generators;
  `evalD` (evaluation on a polynomial, `D(f) = Σ D(xᵢ)·∂f/∂xᵢ`, the
  polynomial-ring collaborator's derivation semantics), `bracketD`,
  `ltD` (leading term with larger-index tie-break), `degD`.
* the two revisions of the completion algorithm: `checkLoop`/`check`
  (FIFO queue, `generator.py`) and `sstep`/`runD`/`solverRun`
  (priority queue, `solver.py`).
-/

namespace LieCheck

/-! ## Monomials and the degrevlex order -/

/-- A monomial in `n` variables: the exponent of each generator. -/
structure Mon (n : ℕ) where
  e : Fin n → ℕ

/-- Equality of monomials is decided exponent by exponent (a structural
decision procedure, so that concrete runs reduce definitionally). -/
instance {n : ℕ} : DecidableEq (Mon n) := fun a b =>
  decidable_of_iff ((List.finRange n).all (fun i => a.e i == b.e i) = true)
    (by
      rw [List.all_eq_true]
      constructor
      · intro h
        cases a
        cases b
        simp only [Mon.mk.injEq]
        funext i
        exact beq_iff_eq.mp (h i (List.mem_finRange i))
      · rintro rfl i -
        exact beq_self_eq_true _)

namespace Mon

variable {n : ℕ}

/-- Total degree of a monomial. -/
def deg (m : Mon n) : ℕ := ((List.finRange n).map m.e).sum

/-- Product of monomials = pointwise sum of exponents. -/
def add (a b : Mon n) : Mon n := ⟨fun i => a.e i + b.e i⟩

/-- The unit monomial `1` (all exponents zero). -/
def unit : Mon n := ⟨fun _ => 0⟩

/-- Strict degrevlex order: smaller total degree first; at equal total degree
`a < b` iff at the last index where they differ, `a` has the larger exponent. -/
def dlt (a b : Mon n) : Prop :=
  a.deg < b.deg ∨ (a.deg = b.deg ∧ ∃ i : Fin n, b.e i < a.e i ∧ ∀ j : Fin n, i < j → a.e j = b.e j)

instance (a b : Mon n) : Decidable (dlt a b) :=
  decidable_of_iff (a.deg < b.deg ∨ (a.deg = b.deg ∧ ∃ i ∈ List.finRange n,
      b.e i < a.e i ∧ ∀ j ∈ List.finRange n, i < j → a.e j = b.e j))
    (by
      unfold dlt
      constructor
      · rintro (h | ⟨hd, i, -, hi, hj⟩)
        · exact Or.inl h
        · exact Or.inr ⟨hd, i, hi, fun j hij => hj j (List.mem_finRange j) hij⟩
      · rintro (h | ⟨hd, i, hi, hj⟩)
        · exact Or.inl h
        · exact Or.inr ⟨hd, i, List.mem_finRange i, hi, fun j _ hij => hj j hij⟩)

theorem deg_eq_of_e_eq {a b : Mon n} (h : a.e = b.e) : a.deg = b.deg := by
  unfold deg; rw [h]

theorem eq_of_e_eq {a b : Mon n} (h : a.e = b.e) : a = b := by
  cases a; cases b; simpa using h

theorem dlt_irrefl (a : Mon n) : ¬ dlt a a := by
  rintro (h | ⟨-, i, hi, -⟩)
  · exact lt_irrefl _ h
  · exact lt_irrefl _ hi

theorem dlt_trans {a b c : Mon n} (hab : dlt a b) (hbc : dlt b c) : dlt a c := by
  rcases hab with hab | ⟨hdab, i₁, hi₁, ht₁⟩
  · rcases hbc with hbc | ⟨hdbc, -⟩
    · exact Or.inl (lt_trans hab hbc)
    · exact Or.inl (hdbc ▸ hab)
  · rcases hbc with hbc | ⟨hdbc, i₂, hi₂, ht₂⟩
    · exact Or.inl (hdab ▸ hbc)
    · refine Or.inr ⟨hdab.trans hdbc, ?_⟩
      rcases lt_trichotomy i₁ i₂ with h | h | h
      · exact ⟨i₂, by rw [ht₁ i₂ h]; exact hi₂,
          fun j hj => (ht₁ j (h.trans hj)).trans (ht₂ j hj)⟩
      · subst h
        exact ⟨i₁, lt_trans hi₂ hi₁, fun j hj => (ht₁ j hj).trans (ht₂ j hj)⟩
      · exact ⟨i₁, by rw [← ht₂ i₁ h]; exact hi₁,
          fun j hj => (ht₁ j hj).trans (ht₂ j (h.trans hj))⟩

theorem dlt_total (a b : Mon n) : dlt a b ∨ a = b ∨ dlt b a := by
  rcases lt_trichotomy a.deg b.deg with hd | hd | hd
  · exact Or.inl (Or.inl hd)
  · by_cases hab : a = b
    · exact Or.inr (Or.inl hab)
    · have hne : a.e ≠ b.e := fun h => hab (eq_of_e_eq h)
      have hex : ∃ i, a.e i ≠ b.e i := Function.ne_iff.mp hne
      obtain ⟨i₀, hi₀⟩ := hex
      classical
      have hSne : (Finset.univ.filter (fun i : Fin n => a.e i ≠ b.e i)).Nonempty :=
        ⟨i₀, by simp [hi₀]⟩
      set M := (Finset.univ.filter (fun i : Fin n => a.e i ≠ b.e i)).max' hSne with hM
      have hMmem : M ∈ Finset.univ.filter (fun i : Fin n => a.e i ≠ b.e i) :=
        Finset.max'_mem _ _
      have hMne : a.e M ≠ b.e M := by simpa using hMmem
      have htail : ∀ j : Fin n, M < j → a.e j = b.e j := by
        intro j hj
        by_contra hne'
        have : j ≤ M := Finset.le_max' _ j (by simp [hne'])
        exact absurd hj (not_lt.mpr this)
      rcases lt_or_gt_of_ne hMne with h | h
      · exact Or.inr (Or.inr (Or.inr ⟨hd.symm, M, h, fun j hj => (htail j hj).symm⟩))
      · exact Or.inl (Or.inr ⟨hd, M, h, htail⟩)
  · exact Or.inr (Or.inr (Or.inl hd))

theorem dlt_asymm {a b : Mon n} (h : dlt a b) : ¬ dlt b a :=
  fun h' => dlt_irrefl a (dlt_trans h h')

instance : LinearOrder (Mon n) where
  lt := dlt
  le a b := dlt a b ∨ a = b
  le_refl a := Or.inr rfl
  le_trans a b c hab hbc := by
    rcases hab with hab | rfl
    · rcases hbc with hbc | rfl
      · exact Or.inl (dlt_trans hab hbc)
      · exact Or.inl hab
    · exact hbc
  le_antisymm a b hab hba := by
    rcases hab with hab | rfl
    · rcases hba with hba | rfl
      · exact absurd hba (dlt_asymm hab)
      · rfl
    · rfl
  le_total a b := by
    rcases dlt_total a b with h | h | h
    · exact Or.inl (Or.inl h)
    · exact Or.inl (Or.inr h)
    · exact Or.inr (Or.inl h)
  lt_iff_le_not_le := by
    intro a b
    constructor
    · intro h
      refine ⟨Or.inl h, ?_⟩
      rintro (h' | rfl)
      · exact dlt_asymm h h'
      · exact dlt_irrefl _ h
    · rintro ⟨hab | rfl, hn⟩
      · exact hab
      · exact absurd (Or.inr rfl) hn
  decidableLE := fun a b => inferInstanceAs (Decidable (dlt a b ∨ a = b))
  decidableLT := fun a b => inferInstanceAs (Decidable (dlt a b))
  decidableEq := fun a b => inferInstanceAs (Decidable (a = b))

theorem lt_def {a b : Mon n} : a < b ↔ dlt a b := Iff.rfl

theorem le_def {a b : Mon n} : a ≤ b ↔ dlt a b ∨ a = b := Iff.rfl

theorem deg_unit : (unit : Mon n).deg = 0 := by
  simp [deg, unit]

theorem deg_eq_zero_iff {m : Mon n} : m.deg = 0 ↔ m = unit := by
  constructor
  · intro h
    apply eq_of_e_eq
    funext i
    have hmem : m.e i ∈ (List.finRange n).map m.e := List.mem_map_of_mem _ (List.mem_finRange i)
    exact List.sum_eq_zero_iff.mp h _ hmem
  · rintro rfl; exact deg_unit

/-- The unit monomial is the minimum of the degrevlex order. -/
theorem le_unit_iff {m : Mon n} : m ≤ unit ↔ m = unit := by
  constructor
  · rintro (h | rfl)
    · rcases h with h | ⟨hd, i, hi, -⟩
      · exact absurd (deg_unit ▸ h) (Nat.not_lt_zero _)
      · exact deg_eq_zero_iff.mp (by rw [hd, deg_unit])
    · rfl
  · rintro rfl; exact le_refl _

end Mon

/-! ## Polynomials

Model of the symbolic polynomial-ring collaborator (`sage.all.PolynomialRing`):
a polynomial is an unsorted list of (monomial, coefficient) terms; two lists
are the same ring element when all coefficients agree (`coeffP`).  The ring's
`==`, `lm()`, `lc()`, `degree()` are the semantic operations below. -/

/-- A polynomial in `n` variables over `ℚ`: a list of terms. -/
abbrev Poly (n : ℕ) := List (Mon n × ℚ)

variable {n : ℕ}

/-- Coefficient of a monomial in a polynomial. -/
def coeffP (p : Poly n) (m : Mon n) : ℚ := (p.map fun t => if t.1 = m then t.2 else 0).sum

def zeroP : Poly n := []

def oneP : Poly n := [(Mon.unit, 1)]

/-- Addition of ring elements. -/
def addP (p q : Poly n) : Poly n := p ++ q

/-- Scalar multiple of a ring element. -/
def smulP (c : ℚ) (p : Poly n) : Poly n := p.map fun t => (t.1, c * t.2)

/-- Subtraction of ring elements. -/
def subP (p q : Poly n) : Poly n := addP p (smulP (-1) q)

/-- Product of ring elements. -/
def mulP (p q : Poly n) : Poly n :=
  p.flatMap fun t => q.map fun t' => (Mon.add t.1 t'.1, t.2 * t'.2)

/-- Partial derivative of a ring element with respect to generator `i`. -/
def pderivP (i : Fin n) (p : Poly n) : Poly n :=
  p.map fun t => (⟨fun j => if j = i then t.1.e j - 1 else t.1.e j⟩, t.2 * (t.1.e i : ℚ))

/-- Support: monomials with a nonzero coefficient. -/
def suppP (p : Poly n) : List (Mon n) :=
  ((p.map Prod.fst).dedup).filter fun m => decide (coeffP p m ≠ 0)

/-- The `==` test of the ring collaborator: all coefficients agree. -/
def peq (p q : Poly n) : Prop := ∀ m, coeffP p m = coeffP q m

/-- The `poly == 0` test. -/
def pIsZero (p : Poly n) : Prop := ∀ m, coeffP p m = 0

/-- Leading monomial (`poly.lm()`): the degrevlex-maximal monomial of the
support, absent for the zero element. -/
def lmP (p : Poly n) : Option (Mon n) := (suppP p).maximum

/-- Leading term (`poly.lm()`, `poly.lc()`) of a nonzero ring element. -/
def ltermP (p : Poly n) : Option (Mon n × ℚ) := (lmP p).map fun m => (m, coeffP p m)

/-- Total degree (`poly.degree()`) of a nonzero ring element. -/
def degPo (p : Poly n) : Option ℕ := ((suppP p).map Mon.deg).maximum

theorem coeffP_nil (m : Mon n) : coeffP ([] : Poly n) m = 0 := rfl

theorem coeffP_cons (t : Mon n × ℚ) (p : Poly n) (m : Mon n) :
    coeffP (t :: p) m = (if t.1 = m then t.2 else 0) + coeffP p m := by
  simp [coeffP]

theorem coeffP_append (p q : Poly n) (m : Mon n) :
    coeffP (p ++ q) m = coeffP p m + coeffP q m := by
  simp [coeffP]

theorem coeffP_addP (p q : Poly n) (m : Mon n) :
    coeffP (addP p q) m = coeffP p m + coeffP q m := coeffP_append p q m

theorem coeffP_smulP (c : ℚ) (p : Poly n) (m : Mon n) :
    coeffP (smulP c p) m = c * coeffP p m := by
  induction p with
  | nil => simp [coeffP, smulP]
  | cons t p ih =>
      rw [smulP] at ih ⊢
      simp only [List.map_cons, coeffP_cons, ih, mul_add]
      congr 1
      split <;> ring

theorem coeffP_subP (p q : Poly n) (m : Mon n) :
    coeffP (subP p q) m = coeffP p m - coeffP q m := by
  rw [subP, coeffP_addP, coeffP_smulP]; ring

theorem coeffP_oneP (m : Mon n) :
    coeffP (oneP : Poly n) m = if m = Mon.unit then 1 else 0 := by
  simp only [oneP, coeffP, List.map_cons, List.map_nil, List.sum_cons, List.sum_nil, add_zero]
  by_cases h : m = Mon.unit <;> simp [h, eq_comm]

theorem coeffP_eq_zero_of_not_mem {p : Poly n} {m : Mon n}
    (h : m ∉ p.map Prod.fst) : coeffP p m = 0 := by
  induction p with
  | nil => rfl
  | cons t p ih =>
      simp only [List.map_cons, List.mem_cons, not_or] at h
      rw [coeffP_cons, if_neg (fun he => h.1 he.symm), ih h.2, add_zero]

theorem mem_suppP {p : Poly n} {m : Mon n} : m ∈ suppP p ↔ coeffP p m ≠ 0 := by
  constructor
  · intro h
    have := List.of_mem_filter h
    simpa using this
  · intro h
    refine List.mem_filter.mpr ⟨?_, by simpa using h⟩
    rw [List.mem_dedup]
    by_contra hmem
    exact h (coeffP_eq_zero_of_not_mem hmem)

theorem lmP_eq_none_iff {p : Poly n} : lmP p = none ↔ pIsZero p := by
  rw [lmP, List.maximum_eq_none]
  constructor
  · intro h m
    by_contra hc
    have : m ∈ suppP p := mem_suppP.mpr hc
    rw [h] at this
    exact absurd this (List.not_mem_nil m)
  · intro h
    by_contra hne
    obtain ⟨m, hm⟩ := List.exists_mem_of_ne_nil _ hne
    exact absurd (h m) (mem_suppP.mp hm)

theorem lmP_spec {p : Poly n} {m : Mon n} (h : lmP p = some m) :
    coeffP p m ≠ 0 ∧ ∀ μ, coeffP p μ ≠ 0 → μ ≤ m := by
  constructor
  · exact mem_suppP.mp (List.maximum_mem h)
  · intro μ hμ
    have hmem : μ ∈ suppP p := mem_suppP.mpr hμ
    have := List.le_maximum_of_mem hmem h
    exact_mod_cast this

theorem lmP_eq_some_of_max {p : Poly n} {m : Mon n}
    (hc : coeffP p m ≠ 0) (hmax : ∀ μ, coeffP p μ ≠ 0 → μ ≤ m) : lmP p = some m := by
  cases hlm : lmP p with
  | none => exact absurd (lmP_eq_none_iff.mp hlm m) hc
  | some m' =>
      obtain ⟨hc', hmax'⟩ := lmP_spec hlm
      have h1 : m' ≤ m := hmax _ hc'
      have h2 : m ≤ m' := hmax' _ hc
      rw [le_antisymm h1 h2]

/-! ## Derivations (`src/lib/derivation.py`, helper functions of
`src/lib/generator.py`)

A derivation is represented by its images on the generators, the
representation used throughout the source (`Derivation`/`LieDerivation`
both hold a generator-to-image mapping). -/

/-- A derivation of the polynomial algebra, given by its generator images. -/
abbrev Deriv (n : ℕ) := Fin n → Poly n

/-- Evaluation of a derivation on a ring element
(the polynomial-ring collaborator's `D(f) = Σ D(xᵢ)·∂f/∂xᵢ`). -/
def evalD (D : Deriv n) (p : Poly n) : Poly n :=
  (List.finRange n).foldr (fun i acc => addP (mulP (D i) (pderivP i p)) acc) zeroP

/-- `LieDerivation.bracket` / the bracket of `generator.py`:
`[D1, D2](g) = D1(D2(g)) - D2(D1(g))` on each generator. -/
def bracketD (A B : Deriv n) : Deriv n :=
  fun g => subP (evalD A (B g)) (evalD B (A g))

/-- `_deriv_scale` / `LieDerivation.__mul__` by a scalar: pointwise scaling. -/
def scaleD (c : ℚ) (D : Deriv n) : Deriv n := fun g => smulP c (D g)

/-- `_deriv_sub_scaled(D1, D2, scalar) = D1 - scalar * D2`, also
`D - basis_D * lc` of `LieBasisSolver._reduce`. -/
def subScaledD (D B : Deriv n) (c : ℚ) : Deriv n := fun g => subP (D g) (smulP c (B g))

/-- One iteration of the `leading_term` scan: skip a zero image, otherwise
keep the candidate with the larger leading monomial (`lm > curr_lm`), ties on
the monomial broken in favour of the larger component index (`i > best[0]`). -/
def ltdStep (D : Deriv n) (best : Option (Fin n × Mon n × ℚ)) (i : Fin n) :
    Option (Fin n × Mon n × ℚ) :=
  match ltermP (D i) with
  | none => best
  | some (m, c) =>
      match best with
      | none => some (i, m, c)
      | some (i₀, m₀, c₀) =>
          if m₀ < m then some (i, m, c)
          else if m = m₀ then (if i₀ < i then some (i, m, c) else some (i₀, m₀, c₀))
          else some (i₀, m₀, c₀)

/-- `_get_leading_term` / `LieDerivation.leading_term`: scan the generator
images in index order keeping the term with the degrevlex-largest leading
monomial, ties broken in favour of the larger component index. -/
def ltD (D : Deriv n) : Option (Fin n × Mon n × ℚ) :=
  (List.finRange n).foldl (ltdStep D) none

/-- `LieDerivation.degree`: maximum total degree of the nonzero images,
`-1` for the zero derivation. -/
def degD (D : Deriv n) : Int :=
  (List.finRange n).foldl
    (fun acc i =>
      match degPo (D i) with
      | none => acc
      | some d => max acc (d : Int))
    (-1)

/-- Strict order on term keys: leading monomial first, component index second. -/
def tkLt (a b : Mon n × Fin n) : Prop := a.1 < b.1 ∨ (a.1 = b.1 ∧ a.2 < b.2)

/-- Reflexive order on term keys. -/
def tkLe (a b : Mon n × Fin n) : Prop := tkLt a b ∨ a = b

instance (a b : Mon n × Fin n) : Decidable (tkLt a b) := by unfold tkLt; infer_instance

instance (a b : Mon n × Fin n) : Decidable (tkLe a b) := by unfold tkLe; infer_instance

theorem tkLt_irrefl (a : Mon n × Fin n) : ¬ tkLt a a := by
  rintro (h | ⟨-, h⟩) <;> exact lt_irrefl _ h

theorem tkLt_trans {a b c : Mon n × Fin n} (hab : tkLt a b) (hbc : tkLt b c) : tkLt a c := by
  rcases hab with hab | ⟨hab, hab'⟩ <;> rcases hbc with hbc | ⟨hbc, hbc'⟩
  · exact Or.inl (lt_trans hab hbc)
  · exact Or.inl (hbc ▸ hab)
  · exact Or.inl (hab ▸ hbc)
  · exact Or.inr ⟨hab.trans hbc, lt_trans hab' hbc'⟩

theorem tkLe_trans {a b c : Mon n × Fin n} (hab : tkLe a b) (hbc : tkLe b c) : tkLe a c := by
  rcases hab with hab | rfl
  · rcases hbc with hbc | rfl
    · exact Or.inl (tkLt_trans hab hbc)
    · exact Or.inl hab
  · exact hbc

theorem tkLe_of_tkLt {a b : Mon n × Fin n} (h : tkLt a b) : tkLe a b := Or.inl h

theorem tkLt_of_tkLe_of_ne {a b : Mon n × Fin n} (h : tkLe a b) (hne : a ≠ b) : tkLt a b := by
  rcases h with h | rfl
  · exact h
  · exact absurd rfl hne

/-- Specification of the leading term of a derivation: the coefficient of
`(m, i)` is `c ≠ 0` and every nonzero coefficient sits at a term key
`≤ (m, i)`. -/
def LtdSpec (D : Deriv n) (i : Fin n) (m : Mon n) (c : ℚ) : Prop :=
  coeffP (D i) m = c ∧ c ≠ 0 ∧ ∀ j μ, coeffP (D j) μ ≠ 0 → tkLe (μ, j) (m, i)

theorem ltermP_eq_none_iff {p : Poly n} : ltermP p = none ↔ pIsZero p := by
  rw [ltermP, ← lmP_eq_none_iff]
  cases lmP p <;> simp

theorem ltermP_spec {p : Poly n} {m : Mon n} {c : ℚ} (h : ltermP p = some (m, c)) :
    coeffP p m = c ∧ c ≠ 0 ∧ ∀ μ, coeffP p μ ≠ 0 → μ ≤ m := by
  rw [ltermP] at h
  cases hlm : lmP p with
  | none => rw [hlm] at h; exact absurd h (by simp)
  | some m' =>
      rw [hlm] at h
      simp only [Option.map_some'] at h
      obtain ⟨h1, h2⟩ := lmP_spec hlm
      have hm : m' = m := congrArg Prod.fst (Option.some.inj h)
      subst hm
      have hc : coeffP p m' = c := congrArg Prod.snd (Option.some.inj h)
      exact ⟨hc, hc ▸ h1, h2⟩

theorem ltermP_eq_some_of_max {p : Poly n} {m : Mon n}
    (hc : coeffP p m ≠ 0) (hmax : ∀ μ, coeffP p μ ≠ 0 → μ ≤ m) :
    ltermP p = some (m, coeffP p m) := by
  rw [ltermP, lmP_eq_some_of_max hc hmax, Option.map_some']

/-- Auxiliary: invariant of the `ltD` fold over a set of scanned indices. -/
def LtdFoldInv (D : Deriv n) (S : List (Fin n)) : Option (Fin n × Mon n × ℚ) → Prop
  | none => ∀ j ∈ S, ∀ μ, coeffP (D j) μ = 0
  | some (i, m, c) => i ∈ S ∧ coeffP (D i) m = c ∧ c ≠ 0 ∧
      ∀ j ∈ S, ∀ μ, coeffP (D j) μ ≠ 0 → tkLe (μ, j) (m, i)

theorem ltdStep_inv (D : Deriv n) (S : List (Fin n)) (i : Fin n)
    (acc : Option (Fin n × Mon n × ℚ)) (h : LtdFoldInv D S acc) :
    LtdFoldInv D (S ++ [i]) (ltdStep D acc i) := by
  rw [ltdStep]
  cases hlt : ltermP (D i) with
  | none =>
      have hz : pIsZero (D i) := ltermP_eq_none_iff.mp hlt
      cases acc with
      | none =>
          intro j hj μ
          rcases List.mem_append.mp hj with hj | hj
          · exact h j hj μ
          · rw [List.mem_singleton.mp hj]; exact hz μ
      | some t =>
          obtain ⟨i₀, m₀, c₀⟩ := t
          obtain ⟨hmem, hco, hnz, hdom⟩ := h
          refine ⟨List.mem_append.mpr (Or.inl hmem), hco, hnz, ?_⟩
          intro j hj μ hμ
          rcases List.mem_append.mp hj with hj | hj
          · exact hdom j hj μ hμ
          · rw [List.mem_singleton.mp hj] at hμ
            exact absurd (hz μ) hμ
  | some t =>
      obtain ⟨m, c⟩ := t
      obtain ⟨hco, hnz, hmax⟩ := ltermP_spec hlt
      cases acc with
      | none =>
          refine ⟨List.mem_append.mpr (Or.inr (List.mem_singleton.mpr rfl)), hco, hnz, ?_⟩
          intro j hj μ hμ
          rcases List.mem_append.mp hj with hj | hj
          · exact absurd (h j hj μ) hμ
          · rw [List.mem_singleton.mp hj] at hμ ⊢
            rcases eq_or_lt_of_le (hmax μ hμ) with rfl | hlt'
            · exact Or.inr rfl
            · exact Or.inl (Or.inl hlt')
      | some t₀ =>
          obtain ⟨i₀, m₀, c₀⟩ := t₀
          obtain ⟨hmem₀, hco₀, hnz₀, hdom₀⟩ := h
          have hnew : ∀ μ, coeffP (D i) μ ≠ 0 → tkLe (μ, i) (m, i) := by
            intro μ hμ
            rcases eq_or_lt_of_le (hmax μ hμ) with rfl | hlt'
            · exact Or.inr rfl
            · exact Or.inl (Or.inl hlt')
          by_cases h1 : m₀ < m
          · simp only [if_pos h1]
            refine ⟨List.mem_append.mpr (Or.inr (List.mem_singleton.mpr rfl)), hco, hnz, ?_⟩
            intro j hj μ hμ
            rcases List.mem_append.mp hj with hj | hj
            · refine tkLe_trans (hdom₀ j hj μ hμ) (Or.inl ?_)
              exact (Or.inl h1 : tkLt (m₀, i₀) (m, i))
            · rw [List.mem_singleton.mp hj] at hμ ⊢
              exact hnew μ hμ
          · simp only [if_neg h1]
            by_cases h2 : m = m₀
            · subst h2
              simp only [if_pos rfl]
              by_cases h3 : i₀ < i
              · simp only [if_pos h3]
                refine ⟨List.mem_append.mpr (Or.inr (List.mem_singleton.mpr rfl)),
                  hco, hnz, ?_⟩
                intro j hj μ hμ
                rcases List.mem_append.mp hj with hj | hj
                · refine tkLe_trans (hdom₀ j hj μ hμ) (Or.inl ?_)
                  exact (Or.inr ⟨rfl, h3⟩ : tkLt (m, i₀) (m, i))
                · rw [List.mem_singleton.mp hj] at hμ ⊢
                  exact hnew μ hμ
              · simp only [if_neg h3]
                refine ⟨List.mem_append.mpr (Or.inl hmem₀), hco₀, hnz₀, ?_⟩
                intro j hj μ hμ
                rcases List.mem_append.mp hj with hj | hj
                · exact hdom₀ j hj μ hμ
                · rw [List.mem_singleton.mp hj] at hμ ⊢
                  rcases hnew μ hμ with hle | he
                  · rcases hle with hle | ⟨he', hle⟩
                    · exact Or.inl (Or.inl hle)
                    · exact Or.inl (Or.inr ⟨he', lt_of_lt_of_le hle (not_lt.mp h3)⟩)
                  · have hμm : μ = m := congrArg Prod.fst he
                    subst hμm
                    rcases eq_or_lt_of_le (not_lt.mp h3) with he'' | hlt''
                    · exact Or.inr (by rw [he''])
                    · exact Or.inl (Or.inr ⟨rfl, hlt''⟩)
            · simp only [if_neg h2]
              have hml : m < m₀ := by
                rcases lt_trichotomy m m₀ with h' | h' | h'
                · exact h'
                · exact absurd h' h2
                · exact absurd h' h1
              refine ⟨List.mem_append.mpr (Or.inl hmem₀), hco₀, hnz₀, ?_⟩
              intro j hj μ hμ
              rcases List.mem_append.mp hj with hj | hj
              · exact hdom₀ j hj μ hμ
              · rw [List.mem_singleton.mp hj] at hμ ⊢
                refine tkLe_trans (hnew μ hμ) (Or.inl ?_)
                exact (Or.inl hml : tkLt (m, i) (m₀, i₀))

theorem ltD_fold_inv (D : Deriv n) :
    ∀ (l S : List (Fin n)) (acc : Option (Fin n × Mon n × ℚ)), LtdFoldInv D S acc →
      LtdFoldInv D (S ++ l) (l.foldl (ltdStep D) acc) := by
  intro l
  induction l with
  | nil => intro S acc h; simpa using h
  | cons i l ih =>
      intro S acc h
      have := ih (S ++ [i]) _ (ltdStep_inv D S i acc h)
      simpa [List.append_assoc] using this

theorem ltD_none_iff {D : Deriv n} : ltD D = none ↔ ∀ j, pIsZero (D j) := by
  constructor
  · intro h j μ
    have := ltD_fold_inv D (List.finRange n) [] none (by intro j hj; simp at hj)
    rw [ltD] at h
    rw [h] at this
    exact this j (by simp) μ
  · intro h
    rw [ltD]
    have : ∀ (l : List (Fin n)), l.foldl (ltdStep D) none = none := by
      intro l
      induction l with
      | nil => rfl
      | cons i l ih =>
          have hz : ltermP (D i) = none := ltermP_eq_none_iff.mpr (h i)
          simp only [List.foldl_cons, ltdStep, hz]
          exact ih
    exact this _

theorem ltD_spec {D : Deriv n} {i : Fin n} {m : Mon n} {c : ℚ}
    (h : ltD D = some (i, m, c)) : LtdSpec D i m c := by
  have := ltD_fold_inv D (List.finRange n) [] none (by intro j hj; simp at hj)
  rw [ltD] at h
  rw [h] at this
  obtain ⟨-, hco, hnz, hdom⟩ := this
  exact ⟨hco, hnz, fun j μ hμ => hdom j (by simp) μ hμ⟩

theorem ltD_eq_some_of_spec {D : Deriv n} {i : Fin n} {m : Mon n} {c : ℚ}
    (h : LtdSpec D i m c) : ltD D = some (i, m, c) := by
  obtain ⟨hco, hnz, hdom⟩ := h
  cases hlt : ltD D with
  | none =>
      have := ltD_none_iff.mp hlt i m
      rw [this] at hco
      exact absurd hco.symm hnz
  | some t =>
      obtain ⟨i', m', c'⟩ := t
      obtain ⟨hco', hnz', hdom'⟩ := ltD_spec hlt
      have h1 : tkLe (m', i') (m, i) := hdom i' m' (by rw [hco']; exact hnz')
      have h2 : tkLe (m, i) (m', i') := hdom' i m (by rw [hco]; exact hnz)
      have hkey : (m', i') = (m, i) := by
        rcases h1 with h1 | h1
        · rcases h2 with h2 | h2
          · exact absurd (tkLt_trans h1 h2) (tkLt_irrefl _)
          · exact h2.symm
        · exact h1
      have hm : m' = m := congrArg Prod.fst hkey
      have hi : i' = i := congrArg Prod.snd hkey
      subst hm; subst hi
      rw [hco'] at hco
      rw [hco]

/-! ## The basis and the reduction loop (`LieBasisSolver._reduce`,
inner `while` of `check`) -/

/-- A basis key: (component index, leading monomial). -/
abbrev BKey (n : ℕ) := Fin n × Mon n

/-- The basis dictionary `{(comp_idx, lm): Derivation}`. -/
abbrev Basis (n : ℕ) := List (BKey n × Deriv n)

/-- Dictionary lookup `basis[key]` / `key in basis`. -/
def blookup (b : Basis n) (k : BKey n) : Option (Deriv n) :=
  (b.find? fun kv => decide (kv.1 = k)).map Prod.snd

/-- Dictionary assignment `basis[key] = v` (replaces any previous entry). -/
def binsert (b : Basis n) (k : BKey n) (v : Deriv n) : Basis n :=
  (k, v) :: b.filter fun kv => decide (kv.1 ≠ k)

/-- The normalization invariant of the basis: every stored derivation has
leading term exactly its key with leading coefficient `1`. -/
def BasisInv (b : Basis n) : Prop :=
  ∀ kv ∈ b, ltD kv.2 = some (kv.1.1, kv.1.2, 1)

/-- "At most one basis entry per (component, monomial) key". -/
def BasisKeysNodup (b : Basis n) : Prop := (b.map Prod.fst).Nodup

theorem blookup_mem {b : Basis n} {k : BKey n} {B : Deriv n}
    (h : blookup b k = some B) : (k, B) ∈ b := by
  rw [blookup] at h
  cases hf : b.find? (fun kv => decide (kv.1 = k)) with
  | none => rw [hf] at h; exact absurd h (by simp)
  | some kv =>
      rw [hf] at h
      simp only [Option.map_some'] at h
      have hmem := List.mem_of_find?_eq_some hf
      have hkey := List.find?_some hf
      have : kv.1 = k := of_decide_eq_true hkey
      have hB : kv.2 = B := Option.some.inj h
      rw [← this, ← hB]
      exact hmem

theorem blookup_spec {b : Basis n} (hb : BasisInv b) {i : Fin n} {m : Mon n} {B : Deriv n}
    (h : blookup b (i, m) = some B) : ltD B = some (i, m, 1) :=
  hb _ (blookup_mem h)

/-- The reduction loop of `_reduce`/`check` with explicit fuel: while the
candidate's leading term key is present in the basis, subtract
`coefficient × basis[key]`.  `reduceF_stable` below shows that
`basis.length + 1` units of fuel always reach the loop's exit condition, so
`reduceD` is the exact result of the unbounded `while` loop. -/
def reduceF : ℕ → Basis n → Deriv n → Deriv n
  | 0, _, D => D
  | f + 1, b, D =>
      match ltD D with
      | none => D
      | some (i, m, c) =>
          match blookup b (i, m) with
          | none => D
          | some B => reduceF f b (subScaledD D B c)

/-- `LieBasisSolver._reduce` / the inner `while` loop of `check`. -/
def reduceD (b : Basis n) (D : Deriv n) : Deriv n := reduceF (b.length + 1) b D

/-- Exit condition of the reduction loop: no leading term remains, or the
leading term's key is not in the basis. -/
def RedStopped (b : Basis n) (D : Deriv n) : Prop :=
  ltD D = none ∨ ∀ i m c, ltD D = some (i, m, c) → blookup b (i, m) = none

/-- Core decrease property of a single reduction step: subtracting
`c × basis[(i, m)]` from a candidate with leading term `(i, m, c)` kills the
term at `(m, i)` and leaves only strictly smaller term keys. -/
theorem subScaled_coeff_lt {D B : Deriv n} {i : Fin n} {m : Mon n} {c : ℚ}
    (hD : ltD D = some (i, m, c)) (hB : ltD B = some (i, m, 1)) :
    ∀ j μ, coeffP (subScaledD D B c j) μ ≠ 0 → tkLt (μ, j) (m, i) := by
  obtain ⟨hDc, hDnz, hDdom⟩ := ltD_spec hD
  obtain ⟨hBc, -, hBdom⟩ := ltD_spec hB
  intro j μ hne
  have hco : coeffP (subScaledD D B c j) μ = coeffP (D j) μ - c * coeffP (B j) μ := by
    rw [subScaledD, coeffP_subP, coeffP_smulP]
  have hle : tkLe (μ, j) (m, i) := by
    by_cases hDz : coeffP (D j) μ = 0
    · by_cases hBz : coeffP (B j) μ = 0
      · rw [hco, hDz, hBz] at hne
        simp at hne
      · exact hBdom j μ hBz
    · exact hDdom j μ hDz
  rcases hle with hlt | he
  · exact hlt
  · exfalso
    have hμ : μ = m := congrArg Prod.fst he
    have hj : j = i := congrArg Prod.snd he
    subst hμ; subst hj
    rw [hco, hDc, hBc, mul_one, sub_self] at hne
    exact hne rfl

theorem ltD_subScaled_lt {D B : Deriv n} {i : Fin n} {m : Mon n} {c : ℚ}
    (hD : ltD D = some (i, m, c)) (hB : ltD B = some (i, m, 1)) :
    ltD (subScaledD D B c) = none ∨
      ∃ i' m' c', ltD (subScaledD D B c) = some (i', m', c') ∧ tkLt (m', i') (m, i) := by
  cases hlt : ltD (subScaledD D B c) with
  | none => exact Or.inl rfl
  | some t =>
      obtain ⟨i', m', c'⟩ := t
      obtain ⟨hc', hnz', -⟩ := ltD_spec hlt
      refine Or.inr ⟨i', m', c', rfl, ?_⟩
      exact subScaled_coeff_lt hD hB i' m' (by rw [hc']; exact hnz')

/-- `countP` is monotone in the predicate. -/
theorem countP_mono_pred {α : Type _} (l : List α) (p q : α → Bool)
    (hpq : ∀ x ∈ l, p x = true → q x = true) : l.countP p ≤ l.countP q := by
  induction l with
  | nil => simp
  | cons y l ih =>
      have hy := hpq y (List.mem_cons_self y l)
      have ht : ∀ x ∈ l, p x = true → q x = true :=
        fun x hx => hpq x (List.mem_cons_of_mem _ hx)
      have ihl := ih ht
      cases hpy : p y with
      | true => simp [List.countP_cons, hy hpy, hpy, ihl]
      | false =>
          cases hqy : q y <;> simp [List.countP_cons, hpy, hqy] <;> omega

/-- `countP` strictly decreases when the predicate weakens and some member
drops out. -/
theorem countP_lt_pred {α : Type _} (l : List α) (p q : α → Bool)
    (hpq : ∀ x ∈ l, p x = true → q x = true)
    (x : α) (hx : x ∈ l) (hqx : q x = true) (hpx : p x = false) :
    l.countP p < l.countP q := by
  induction l with
  | nil => simp at hx
  | cons y l ih =>
      have ht : ∀ z ∈ l, p z = true → q z = true :=
        fun z hz => hpq z (List.mem_cons_of_mem _ hz)
      rcases List.mem_cons.mp hx with rfl | hx'
      · have := countP_mono_pred l p q ht
        simp [List.countP_cons, hpx, hqx]
        omega
      · have hlt := ih ht hx'
        have hy := hpq y (List.mem_cons_self y l)
        cases hpy : p y with
        | true => simp [List.countP_cons, hpy, hy hpy]; omega
        | false =>
            cases hqy : q y <;> simp [List.countP_cons, hpy, hqy] <;> omega

/-- Reduction measure: the number of basis entries whose key is `≤` the
candidate's leading-term key. -/
def redMeasure (b : Basis n) (D : Deriv n) : ℕ :=
  match ltD D with
  | none => 0
  | some (i, m, _) => b.countP fun kv => decide (tkLe (kv.1.2, kv.1.1) (m, i))

theorem redMeasure_le (b : Basis n) (D : Deriv n) : redMeasure b D ≤ b.length := by
  rw [redMeasure]
  cases ltD D with
  | none => exact Nat.zero_le _
  | some t => exact List.countP_le_length _

theorem redMeasure_pos {b : Basis n} {D B : Deriv n} {i : Fin n} {m : Mon n} {c : ℚ}
    (hD : ltD D = some (i, m, c)) (hL : blookup b (i, m) = some B) :
    1 ≤ redMeasure b D := by
  have h0 : redMeasure b D = b.countP fun kv => decide (tkLe (kv.1.2, kv.1.1) (m, i)) := by
    rw [redMeasure, hD]
  rw [h0]
  have : 0 < b.countP fun kv => decide (tkLe (kv.1.2, kv.1.1) (m, i)) := by
    rw [List.countP_pos]
    exact ⟨((i, m), B), blookup_mem hL, by simp only [decide_eq_true_eq]; exact Or.inr rfl⟩
  omega

theorem redMeasure_decrease {b : Basis n} (hb : BasisInv b) {D B : Deriv n}
    {i : Fin n} {m : Mon n} {c : ℚ}
    (hD : ltD D = some (i, m, c)) (hL : blookup b (i, m) = some B) :
    redMeasure b (subScaledD D B c) < redMeasure b D := by
  have hB := blookup_spec hb hL
  rcases ltD_subScaled_lt hD hB with hnone | ⟨i', m', c', hsome, hlt⟩
  · have h1 := redMeasure_pos hD hL
    have h0 : redMeasure b (subScaledD D B c) = 0 := by rw [redMeasure, hnone]
    omega
  · have h1 : redMeasure b (subScaledD D B c)
        = b.countP fun kv => decide (tkLe (kv.1.2, kv.1.1) (m', i')) := by
      rw [redMeasure, hsome]
    have h2 : redMeasure b D = b.countP fun kv => decide (tkLe (kv.1.2, kv.1.1) (m, i)) := by
      rw [redMeasure, hD]
    rw [h1, h2]
    refine countP_lt_pred b _ _ ?_ ((i, m), B) (blookup_mem hL) ?_ ?_
    · intro kv _ hkv
      simp only [decide_eq_true_eq] at hkv ⊢
      exact tkLe_trans hkv (Or.inl hlt)
    · simp only [decide_eq_true_eq]
      exact Or.inr rfl
    · simp only [decide_eq_false_iff_not]
      rintro (h | h)
      · exact tkLt_irrefl _ (tkLt_trans h hlt)
      · rw [h] at hlt
        exact tkLt_irrefl _ hlt

/-- Termination and fuel-independence of the reduction loop: on a normalized
basis, `basis.length + 1` iterations always reach the exit condition, and any
larger fuel gives the same result. -/
theorem reduceF_stable {b : Basis n} (hb : BasisInv b) :
    ∀ (fuel : ℕ) (D : Deriv n), redMeasure b D < fuel →
      RedStopped b (reduceF fuel b D) ∧
        ∀ fuel', redMeasure b D < fuel' → reduceF fuel' b D = reduceF fuel b D := by
  intro fuel
  induction fuel with
  | zero => intro D h; omega
  | succ f ih =>
      intro D h
      cases hD : ltD D with
      | none =>
          have hred : ∀ g, reduceF (g + 1) b D = D := by
            intro g; simp only [reduceF, hD]
          constructor
          · rw [hred f]
            exact Or.inl hD
          · intro fuel' hf'
            cases fuel' with
            | zero =>
                rw [hred f]
                rfl
            | succ f' => rw [hred f', hred f]
      | some t =>
          obtain ⟨i, m, c⟩ := t
          cases hL : blookup b (i, m) with
          | none =>
              have hred : ∀ g, reduceF (g + 1) b D = D := by
                intro g; simp only [reduceF, hD, hL]
              constructor
              · rw [hred f]
                refine Or.inr ?_
                intro i' m' c' h'
                rw [hD] at h'
                obtain ⟨h1, h2⟩ := Prod.mk.injEq .. ▸ Option.some.inj h'
                obtain ⟨h3, h4⟩ := Prod.mk.injEq .. ▸ h2
                rw [← h1, ← h3]
                exact hL
              · intro fuel' hf'
                have hpos : 1 ≤ fuel' := by
                  rcases Nat.eq_zero_or_pos fuel' with rfl | h'
                  · omega
                  · exact h'
                obtain ⟨f', rfl⟩ := Nat.exists_eq_add_of_le hpos
                rw [Nat.add_comm 1 f', hred f', hred f]
          | some B =>
              have hdec := redMeasure_decrease hb hD hL
              have hmf : redMeasure b (subScaledD D B c) < f := by
                have := redMeasure_pos hD hL
                omega
              obtain ⟨hstop, hstab⟩ := ih (subScaledD D B c) hmf
              have hred : ∀ g, reduceF (g + 1) b D = reduceF g b (subScaledD D B c) := by
                intro g; simp only [reduceF, hD, hL]
              constructor
              · rw [hred f]
                exact hstop
              · intro fuel' hf'
                have hpos : 1 ≤ fuel' := by
                  have := redMeasure_pos hD hL
                  omega
                obtain ⟨f', rfl⟩ := Nat.exists_eq_add_of_le hpos
                rw [Nat.add_comm 1 f', hred f', hred f]
                refine hstab f' ?_
                omega

/-- The canonical fuel always suffices. -/
theorem reduceD_stopped {b : Basis n} (hb : BasisInv b) (D : Deriv n) :
    RedStopped b (reduceD b D) ∧
      ∀ fuel', b.length + 1 ≤ fuel' → reduceF fuel' b D = reduceD b D := by
  have hm : redMeasure b D < b.length + 1 := by
    have := redMeasure_le b D
    omega
  obtain ⟨h1, h2⟩ := reduceF_stable hb (b.length + 1) D hm
  refine ⟨h1, ?_⟩
  intro fuel' hf'
  exact h2 fuel' (by omega)

/-- Normalization (`current_D * (1/lc)` / `_deriv_scale(current_D, 1/lc)`):
scaling by a nonzero constant scales the leading term's coefficient. -/
theorem ltD_scaleD {c : ℚ} (hc : c ≠ 0) (D : Deriv n) :
    ltD (scaleD c D) = (ltD D).map fun t => (t.1, t.2.1, c * t.2.2) := by
  cases hD : ltD D with
  | none =>
      have hz := ltD_none_iff.mp hD
      simp only [Option.map_none']
      rw [ltD_none_iff]
      intro j μ
      rw [scaleD, coeffP_smulP, hz j μ, mul_zero]
  | some t =>
      obtain ⟨i, m, c'⟩ := t
      obtain ⟨hco, hnz, hdom⟩ := ltD_spec hD
      simp only [Option.map_some']
      refine ltD_eq_some_of_spec ⟨?_, mul_ne_zero hc hnz, ?_⟩
      · rw [scaleD, coeffP_smulP, hco]
      · intro j μ hμ
        rw [scaleD, coeffP_smulP] at hμ
        exact hdom j μ fun h => hμ (by rw [h, mul_zero])

/-- Decidable test for the zero ring element. -/
def pZeroB (p : Poly n) : Bool := (suppP p).isEmpty

theorem pZeroB_iff {p : Poly n} : pZeroB p = true ↔ pIsZero p := by
  rw [pZeroB, List.isEmpty_iff]
  constructor
  · intro h m
    by_contra hc
    have : m ∈ suppP p := mem_suppP.mpr hc
    rw [h] at this
    exact absurd this (List.not_mem_nil m)
  · intro h
    by_contra hne
    obtain ⟨m, hm⟩ := List.exists_mem_of_ne_nil _ hne
    exact absurd (h m) (mem_suppP.mp hm)

/-! ## Dictionary lemmas for the basis -/

theorem find?_filter_of_imp {α : Type _} (l : List α) (p q : α → Bool)
    (h : ∀ x, p x = true → q x = true) : (l.filter q).find? p = l.find? p := by
  induction l with
  | nil => rfl
  | cons x l ih =>
      cases hq : q x with
      | true =>
          rw [List.filter_cons_of_pos hq]
          cases hp : p x with
          | true => rw [List.find?_cons_of_pos _ hp, List.find?_cons_of_pos _ hp]
          | false => rw [List.find?_cons_of_neg _ (by simp [hp]), List.find?_cons_of_neg _ (by simp [hp]), ih]
      | false =>
          have hp : p x = false := by
            cases hpx : p x with
            | true => rw [h x hpx] at hq; exact absurd hq (by simp)
            | false => rfl
          rw [List.filter_cons_of_neg (by simp [hq]), List.find?_cons_of_neg _ (by simp [hp]), ih]

theorem blookup_binsert_self (b : Basis n) (k : BKey n) (v : Deriv n) :
    blookup (binsert b k v) k = some v := by
  rw [binsert, blookup, List.find?_cons_of_pos _ (by simp)]
  rfl

theorem blookup_binsert_ne (b : Basis n) {k k' : BKey n} (v : Deriv n) (h : k' ≠ k) :
    blookup (binsert b k v) k' = blookup b k' := by
  rw [binsert, blookup, List.find?_cons_of_neg _ (by simpa using fun he => h he.symm), blookup]
  rw [find?_filter_of_imp]
  intro kv hkv
  simp only [decide_eq_true_eq] at hkv ⊢
  rw [hkv]
  exact h

theorem binsert_basisInv {b : Basis n} (hb : BasisInv b) {k : BKey n} {v : Deriv n}
    (hv : ltD v = some (k.1, k.2, 1)) : BasisInv (binsert b k v) := by
  intro kv hkv
  rcases List.mem_cons.mp hkv with h | h
  · rw [h]; exact hv
  · exact hb kv (List.mem_of_mem_filter h)

theorem binsert_keysNodup {b : Basis n} (hb : BasisKeysNodup b) (k : BKey n) (v : Deriv n) :
    BasisKeysNodup (binsert b k v) := by
  rw [BasisKeysNodup, binsert, List.map_cons]
  refine List.Nodup.cons ?_ ?_
  · intro hmem
    obtain ⟨kv, hkv, hkey⟩ := List.mem_map.mp hmem
    have := List.of_mem_filter hkv
    simp only [decide_eq_true_eq] at this
    exact this hkey
  · exact List.Nodup.sublist (List.Sublist.map _ (List.filter_sublist b)) hb

theorem binsert_presence {b : Basis n} {k₀ : BKey n}
    (h : ∃ w, blookup b k₀ = some w) (k : BKey n) (v : Deriv n) :
    ∃ w, blookup (binsert b k v) k₀ = some w := by
  by_cases hk : k₀ = k
  · subst hk
    exact ⟨v, blookup_binsert_self b k₀ v⟩
  · obtain ⟨w, hw⟩ := h
    exact ⟨w, by rw [blookup_binsert_ne b v hk]; exact hw⟩

/-- Normalized survivor: `ltD (scaleD (1/c) R) = some (i, m, 1)` when
`ltD R = some (i, m, c)`. -/
theorem ltD_norm {R : Deriv n} {i : Fin n} {m : Mon n} {c : ℚ}
    (h : ltD R = some (i, m, c)) : ltD (scaleD (1 / c) R) = some (i, m, 1) := by
  obtain ⟨-, hnz, -⟩ := ltD_spec h
  rw [ltD_scaleD (by simpa using hnz), h, Option.map_some']
  simp only
  rw [one_div, inv_mul_cancel₀ hnz]

/-! ## The FIFO revision: `check` of `src/lib/generator.py` -/

/-- `all(targets_found.values())`. -/
def allTargets (t : Fin n → Bool) : Bool := (List.finRange n).all t

/-- The local state of `check`: basis, work queue, processed list,
targets-found flags. -/
structure CState (n : ℕ) where
  basis : Basis n
  queue : List (Deriv n)
  processed : List (Deriv n)
  targets : Fin n → Bool

/-- State of `check` before the first loop iteration. -/
def cinit (gens : List (Deriv n)) : CState n :=
  ⟨[], gens, [], fun _ => false⟩

/-- One iteration of the `while` loop of `check`.  Returns
`(some b, s')` when the function returns `b` (empty queue → `False`;
all targets found → `True`), `(none, s')` to continue looping. -/
def cstep (s : CState n) : Option Bool × CState n :=
  match s.queue with
  | [] => (some false, s)
  | D :: rest =>
      let R := reduceD s.basis D
      match ltD R with
      | none => (none, { s with queue := rest })
      | some (i, m, c) =>
          let normD := scaleD (1 / c) R
          let basis' := binsert s.basis (i, m) normD
          if m = Mon.unit then
            let targets' := Function.update s.targets i true
            if allTargets targets' then
              (some true, ⟨basis', rest, s.processed, targets'⟩)
            else
              (none, ⟨basis', rest ++ s.processed.map (fun old => bracketD normD old),
                s.processed ++ [normD], targets'⟩)
          else
            (none, ⟨basis', rest ++ s.processed.map (fun old => bracketD normD old),
              s.processed ++ [normD], s.targets⟩)

/-- The `while queue and iter_count < max_iter` loop; the fuel is the number
of remaining iterations allowed by the budget. -/
def checkLoop : ℕ → CState n → Bool × CState n
  | 0, s => (false, s)
  | f + 1, s =>
      match cstep s with
      | (some r, s') => (r, s')
      | (none, s') => checkLoop f s'

/-- `check(generators, max_iter)`, together with its final local state. -/
def checkFull (gens : List (Deriv n)) (maxIter : ℕ) : Bool × CState n :=
  checkLoop maxIter (cinit gens)

/-- `check(generators, max_iter)` of `src/lib/generator.py`.  An empty
generator list returns `False` immediately. -/
def check (gens : List (Deriv n)) (maxIter : ℕ) : Bool :=
  if gens.isEmpty then false else (checkFull gens maxIter).1

/-! ### Invariants of the `check` machine -/

theorem allTargets_iff {t : Fin n → Bool} : allTargets t = true ↔ ∀ i, t i = true := by
  rw [allTargets, List.all_eq_true]
  exact ⟨fun h i => h i (List.mem_finRange i), fun h i _ => h i⟩

/-- Invariant carried by every state of `check`: the basis is normalized with
unique keys, and every set target flag is backed by a basis entry at the
target key `(i, 1)`. -/
def CInv (s : CState n) : Prop :=
  BasisInv s.basis ∧ BasisKeysNodup s.basis ∧
    ∀ i, s.targets i = true → ∃ v, blookup s.basis (i, Mon.unit) = some v

theorem cinit_inv (gens : List (Deriv n)) : CInv (cinit gens) := by
  refine ⟨?_, ?_, ?_⟩
  · intro kv hkv
    simp [cinit] at hkv
  · simp [cinit, BasisKeysNodup]
  · intro i h
    simp [cinit] at h

theorem cstep_inv {s : CState n} (h : CInv s) :
    ∀ r s', cstep s = (r, s') → CInv s' ∧ (r = some true → allTargets s'.targets = true) := by
  obtain ⟨b, q, pr, tg⟩ := s
  obtain ⟨hbi, hbn, htg⟩ := h
  intro r s' hstep
  cases q with
  | nil =>
      simp only [cstep] at hstep
      obtain ⟨rfl, rfl⟩ := Prod.mk.inj hstep
      exact ⟨⟨hbi, hbn, htg⟩, by simp⟩
  | cons D rest =>
      cases hlt : ltD (reduceD b D) with
      | none =>
          simp only [cstep, hlt] at hstep
          obtain ⟨rfl, rfl⟩ := Prod.mk.inj hstep
          exact ⟨⟨hbi, hbn, htg⟩, by simp⟩
      | some t =>
          obtain ⟨i, m, c⟩ := t
          have hnorm : ltD (scaleD (1 / c) (reduceD b D)) = some (i, m, 1) := ltD_norm hlt
          have hbi' := @binsert_basisInv _ _ hbi (i, m) _ hnorm
          have hbn' := binsert_keysNodup hbn (i, m) (scaleD (1 / c) (reduceD b D))
          simp only [cstep, hlt] at hstep
          by_cases hm : m = Mon.unit
          · rw [if_pos hm] at hstep
            by_cases hall : allTargets (Function.update tg i true) = true
            · rw [if_pos hall] at hstep
              obtain ⟨rfl, rfl⟩ := Prod.mk.inj hstep
              refine ⟨⟨hbi', hbn', ?_⟩, fun _ => hall⟩
              intro j hj
              by_cases hji : j = i
              · subst hji
                subst hm
                exact ⟨_, blookup_binsert_self b (j, Mon.unit) _⟩
              · have hj' : tg j = true := by
                  have h0 : Function.update tg i true j = true := hj
                  rwa [Function.update_noteq hji] at h0
                exact binsert_presence (htg j hj') _ _
            · rw [if_neg hall] at hstep
              obtain ⟨rfl, rfl⟩ := Prod.mk.inj hstep
              refine ⟨⟨hbi', hbn', ?_⟩, by simp⟩
              intro j hj
              by_cases hji : j = i
              · subst hji
                subst hm
                exact ⟨_, blookup_binsert_self b (j, Mon.unit) _⟩
              · have hj' : tg j = true := by
                  have h0 : Function.update tg i true j = true := hj
                  rwa [Function.update_noteq hji] at h0
                exact binsert_presence (htg j hj') _ _
          · rw [if_neg hm] at hstep
            obtain ⟨rfl, rfl⟩ := Prod.mk.inj hstep
            refine ⟨⟨hbi', hbn', ?_⟩, by simp⟩
            intro j hj
            exact binsert_presence (htg j hj) _ _

theorem checkLoop_inv : ∀ (f : ℕ) (s : CState n), CInv s →
    CInv (checkLoop f s).2 ∧
      ((checkLoop f s).1 = true → allTargets (checkLoop f s).2.targets = true) := by
  intro f
  induction f with
  | zero =>
      intro s h
      exact ⟨h, by simp [checkLoop]⟩
  | succ f ih =>
      intro s h
      cases hc : cstep s with
      | mk r s' =>
          obtain ⟨h1, h2⟩ := cstep_inv h r s' hc
          cases r with
          | none =>
              have he : checkLoop (f + 1) s = checkLoop f s' := by
                simp [checkLoop, hc]
              rw [he]
              exact ih s' h1
          | some bb =>
              have he : checkLoop (f + 1) s = (bb, s') := by
                simp [checkLoop, hc]
              rw [he]
              cases bb with
              | true => exact ⟨h1, fun _ => h2 rfl⟩
              | false => exact ⟨h1, by simp⟩

/-- States reachable by continuing iterations of the `check` loop. -/
def CReach (gens : List (Deriv n)) (s : CState n) : Prop :=
  Relation.ReflTransGen (fun a b => cstep a = (none, b)) (cinit gens) s

theorem creach_inv {gens : List (Deriv n)} {s : CState n} (h : CReach gens s) : CInv s := by
  induction h with
  | refl => exact cinit_inv gens
  | tail _ hstep ih => exact (cstep_inv ih _ _ hstep).1

/-- What actually holds of the basis entry recorded at a target key: its
image on `gᵢ` is the constant `1`, and every nonzero coefficient of any image
sits at the unit monomial in a component of index `≤ i` (components of larger
index are zero; components of smaller index may hold nonzero constants). -/
def TargetEntry (b : Basis n) (i : Fin n) : Prop :=
  ∃ v, blookup b (i, Mon.unit) = some v ∧ coeffP (v i) Mon.unit = 1 ∧
    ∀ j μ, coeffP (v j) μ ≠ 0 → μ = Mon.unit ∧ j ≤ i

theorem targetEntry_of_lookup {b : Basis n} (hbi : BasisInv b) {i : Fin n} {v : Deriv n}
    (h : blookup b (i, Mon.unit) = some v) : TargetEntry b i := by
  have hlt := blookup_spec hbi h
  obtain ⟨hco, -, hdom⟩ := ltD_spec hlt
  refine ⟨v, h, hco, ?_⟩
  intro j μ hμ
  rcases hdom j μ hμ with hlt' | he
  · rcases hlt' with hmu | ⟨he, hj⟩
    · have hμu : μ = Mon.unit := Mon.le_unit_iff.mp (le_of_lt hmu)
      exact absurd (hμu ▸ hmu) (lt_irrefl _)
    · exact ⟨he, le_of_lt hj⟩
  · exact ⟨congrArg Prod.fst he, le_of_eq (congrArg Prod.snd he)⟩

theorem checkFull_targets {gens : List (Deriv n)} {mi : ℕ} {s' : CState n}
    (h : checkFull gens mi = (true, s')) : ∀ i, TargetEntry s'.basis i := by
  have h0 := checkLoop_inv mi (cinit gens) (cinit_inv gens)
  rw [checkFull] at h
  rw [h] at h0
  obtain ⟨hinv, hall⟩ := h0
  obtain ⟨hbi, -, htg⟩ := hinv
  intro i
  have hti : s'.targets i = true := allTargets_iff.mp (hall rfl) i
  obtain ⟨v, hv⟩ := htg i hti
  exact targetEntry_of_lookup hbi hv

/-! ## The priority-queue revision: `LieBasisSolver` of `src/lib/solver.py` -/

/-- `QueueItem`: priority = degree, then insertion counter; the payload
derivation is not compared. -/
structure QItem (n : ℕ) where
  degree : Int
  counter : ℕ
  deriv : Deriv n

/-- Strict comparison of queue items as performed by the heap
(`@dataclass(order=True)` on `(degree, unique_counter)`). -/
def qltP (a b : QItem n) : Prop :=
  a.degree < b.degree ∨ (a.degree = b.degree ∧ a.counter < b.counter)

instance (a b : QItem n) : Decidable (qltP a b) := by unfold qltP; infer_instance

/-- `heapq.heappop`: return the least item (by `qltP`) and the remaining
queue.  The heap collaborator is modelled by its contract: pop removes and
returns the smallest entry under the item order. -/
def popMin : List (QItem n) → Option (QItem n × List (QItem n))
  | [] => none
  | x :: xs =>
      match popMin xs with
      | none => some (x, [])
      | some (y, rest) => if qltP y x then some (y, x :: rest) else some (x, xs)

/-- The state of a `LieBasisSolver` instance. -/
structure SState (n : ℕ) where
  basis : Basis n
  queue : List (QItem n)
  processed : List (Deriv n)
  targets : Fin n → Bool
  uniq : ℕ
  iter : ℕ
  maxIter : ℕ

/-- `_add_to_queue`: push with priority = degree and the running counter. -/
def addQueue (s : SState n) (D : Deriv n) : SState n :=
  { s with queue := s.queue ++ [⟨degD D, s.uniq, D⟩], uniq := s.uniq + 1 }

def enqueueAll (s : SState n) (l : List (Deriv n)) : SState n := l.foldl addQueue s

/-- `LieBasisSolver.__init__`: raises a `ValueError` on an empty generator
list, otherwise seeds the queue with every generator. -/
def solverInit (gens : List (Deriv n)) (maxIter : ℕ) : Except String (SState n) :=
  if gens.isEmpty then .error "generators list must not be empty"
  else .ok (enqueueAll ⟨[], [], [], fun _ => false, 0, 0, maxIter⟩ gens)

/-- `LieBasisSolver.step`: returns `(continue?, new state)`. -/
def sstep (s : SState n) : Bool × SState n :=
  if s.queue.isEmpty ∨ s.maxIter ≤ s.iter then (false, s)
  else
    match popMin s.queue with
    | none => (false, s)
    | some (it, rest) =>
        let s₁ : SState n := { s with queue := rest, iter := s.iter + 1 }
        let R := reduceD s₁.basis it.deriv
        match ltD R with
        | none => (true, s₁)
        | some (i, m, c) =>
            let normD := scaleD (1 / c) R
            let s₂ : SState n := { s₁ with basis := binsert s₁.basis (i, m) normD }
            if m = Mon.unit then
              let s₃ : SState n := { s₂ with targets := Function.update s₂.targets i true }
              if allTargets s₃.targets then (false, s₃)
              else
                let s₄ := enqueueAll s₃ (s₃.processed.map fun old => bracketD normD old)
                (true, { s₄ with processed := s₄.processed ++ [normD] })
            else
              let s₄ := enqueueAll s₂ (s₂.processed.map fun old => bracketD normD old)
              (true, { s₄ with processed := s₄.processed ++ [normD] })

/-- The `while running: running = self.step()` loop of `run`.  Every
continuing step increments `iter` and requires `iter < maxIter`, so
`maxIter + 1` rounds of fuel always reach the step that returns `False`
(`runAux_succ_stable` below). -/
def runAux : ℕ → SState n → SState n
  | 0, s => s
  | f + 1, s =>
      match sstep s with
      | (cont, s') => if cont then runAux f s' else s'

/-- `LieBasisSolver.run`, together with its final state: drive `step` to
completion, then report whether all target derivatives were found. -/
def runD (s : SState n) : Bool × SState n :=
  let s' := runAux (s.maxIter + 1) s
  (allTargets s'.targets, s')

/-- `LieBasisSolver(generators, max_iter).run()`. -/
def solverRun (gens : List (Deriv n)) (maxIter : ℕ) : Except String Bool :=
  (solverInit gens maxIter).map fun s => (runD s).1

/-! ### Invariants of the solver machine -/

theorem qltP_irrefl (a : QItem n) : ¬ qltP a a := by
  rintro (h | ⟨-, h⟩) <;> exact lt_irrefl _ h

theorem qltP_trans {a b c : QItem n} (hab : qltP a b) (hbc : qltP b c) : qltP a c := by
  rcases hab with hab | ⟨hab, hab'⟩ <;> rcases hbc with hbc | ⟨hbc, hbc'⟩
  · exact Or.inl (lt_trans hab hbc)
  · exact Or.inl (hbc ▸ hab)
  · exact Or.inl (hab ▸ hbc)
  · exact Or.inr ⟨hab.trans hbc, lt_trans hab' hbc'⟩

theorem qltP_asymm {a b : QItem n} (h : qltP a b) : ¬ qltP b a :=
  fun h' => qltP_irrefl a (qltP_trans h h')

theorem qltP_keys_eq {a b : QItem n} (h1 : ¬ qltP a b) (h2 : ¬ qltP b a) :
    a.degree = b.degree ∧ a.counter = b.counter := by
  rcases lt_trichotomy a.degree b.degree with hd | hd | hd
  · exact absurd (Or.inl hd) h1
  · rcases lt_trichotomy a.counter b.counter with hc | hc | hc
    · exact absurd (Or.inr ⟨hd, hc⟩) h1
    · exact ⟨hd, hc⟩
    · exact absurd (Or.inr ⟨hd.symm, hc⟩) h2
  · exact absurd (Or.inl hd) h2

theorem qltP_congr {a b z : QItem n} (hd : a.degree = b.degree) (hc : a.counter = b.counter)
    (h : qltP z a) : qltP z b := by
  rcases h with h | ⟨h, h'⟩
  · exact Or.inl (hd ▸ h)
  · exact Or.inr ⟨h.trans hd, hc ▸ h'⟩

theorem popMin_cons_some (x : QItem n) (xs : List (QItem n)) :
    ∃ it rest, popMin (x :: xs) = some (it, rest) := by
  cases hp : popMin xs with
  | none => exact ⟨x, [], by simp only [popMin, hp]⟩
  | some t =>
      obtain ⟨y, r⟩ := t
      by_cases hq : qltP y x
      · exact ⟨y, x :: r, by simp only [popMin, hp]; rw [if_pos hq]⟩
      · exact ⟨x, xs, by simp only [popMin, hp]; rw [if_neg hq]⟩

theorem popMin_eq_none {l : List (QItem n)} (h : popMin l = none) : l = [] := by
  cases l with
  | nil => rfl
  | cons x xs =>
      obtain ⟨it, rest, hp⟩ := popMin_cons_some x xs
      simp only [hp] at h
      exact absurd h (by simp)

theorem popMin_mem : ∀ {l : List (QItem n)} {it : QItem n} {rest : List (QItem n)},
    popMin l = some (it, rest) → it ∈ l := by
  intro l
  induction l with
  | nil => intro it rest h; exact absurd h (by simp [popMin])
  | cons x xs ih =>
      intro it rest h
      simp only [popMin] at h
      cases hp : popMin xs with
      | none =>
          simp only [hp] at h
          obtain ⟨h1, -⟩ := Prod.mk.inj (Option.some.inj h)
          rw [← h1]
          exact List.mem_cons_self x xs
      | some t =>
          obtain ⟨y, r⟩ := t
          simp only [hp] at h
          by_cases hq : qltP y x
          · rw [if_pos hq] at h
            obtain ⟨h1, -⟩ := Prod.mk.inj (Option.some.inj h)
            rw [← h1]
            exact List.mem_cons_of_mem x (ih hp)
          · rw [if_neg hq] at h
            obtain ⟨h1, -⟩ := Prod.mk.inj (Option.some.inj h)
            rw [← h1]
            exact List.mem_cons_self x xs

theorem popMin_sublist : ∀ {l : List (QItem n)} {it : QItem n} {rest : List (QItem n)},
    popMin l = some (it, rest) → rest.Sublist l := by
  intro l
  induction l with
  | nil => intro it rest h; exact absurd h (by simp [popMin])
  | cons x xs ih =>
      intro it rest h
      simp only [popMin] at h
      cases hp : popMin xs with
      | none =>
          simp only [hp] at h
          obtain ⟨-, h2⟩ := Prod.mk.inj (Option.some.inj h)
          rw [← h2]
          exact List.nil_sublist _
      | some t =>
          obtain ⟨y, r⟩ := t
          simp only [hp] at h
          by_cases hq : qltP y x
          · rw [if_pos hq] at h
            obtain ⟨-, h2⟩ := Prod.mk.inj (Option.some.inj h)
            rw [← h2]
            exact List.Sublist.cons₂ x (ih hp)
          · rw [if_neg hq] at h
            obtain ⟨-, h2⟩ := Prod.mk.inj (Option.some.inj h)
            rw [← h2]
            exact List.sublist_cons_self x xs

/-- The popped item is minimal under the heap's item order. -/
theorem popMin_min : ∀ {l : List (QItem n)} {it : QItem n} {rest : List (QItem n)},
    popMin l = some (it, rest) → ∀ x ∈ l, ¬ qltP x it := by
  intro l
  induction l with
  | nil => intro it rest h; exact absurd h (by simp [popMin])
  | cons x xs ih =>
      intro it rest h z hz
      simp only [popMin] at h
      cases hp : popMin xs with
      | none =>
          have hxs : xs = [] := popMin_eq_none hp
          simp only [hp] at h
          obtain ⟨h1, -⟩ := Prod.mk.inj (Option.some.inj h)
          subst hxs
          rcases List.mem_singleton.mp hz with rfl
          rw [← h1]
          exact qltP_irrefl z
      | some t =>
          obtain ⟨y, r⟩ := t
          simp only [hp] at h
          have hmin := ih hp
          by_cases hq : qltP y x
          · rw [if_pos hq] at h
            obtain ⟨h1, -⟩ := Prod.mk.inj (Option.some.inj h)
            subst h1
            rcases List.mem_cons.mp hz with rfl | hz'
            · exact qltP_asymm hq
            · exact hmin z hz'
          · rw [if_neg hq] at h
            obtain ⟨h1, -⟩ := Prod.mk.inj (Option.some.inj h)
            subst h1
            rcases List.mem_cons.mp hz with rfl | hz'
            · exact qltP_irrefl z
            · intro hzx
              by_cases hxy : qltP x y
              · exact hmin z hz' (qltP_trans hzx hxy)
              · obtain ⟨hd, hc⟩ := qltP_keys_eq hxy (fun h' => hq h')
                exact hmin z hz' (qltP_congr hd hc hzx)

/-- Queue well-formedness: counters strictly increase along the queue (they
record insertion order) and stay below the running counter. -/
def QInv (s : SState n) : Prop :=
  (s.queue.map QItem.counter).Pairwise (· < ·) ∧ ∀ it ∈ s.queue, it.counter < s.uniq

/-- Invariant carried by every state of a solver run. -/
def SInv (s : SState n) : Prop :=
  BasisInv s.basis ∧ BasisKeysNodup s.basis ∧
    (∀ i, s.targets i = true → ∃ v, blookup s.basis (i, Mon.unit) = some v) ∧ QInv s

theorem addQueue_qinv {s : SState n} (h : QInv s) (D : Deriv n) : QInv (addQueue s D) := by
  obtain ⟨hp, hu⟩ := h
  constructor
  · rw [addQueue]
    simp only [List.map_append, List.map_cons, List.map_nil]
    rw [List.pairwise_append]
    refine ⟨hp, by simp, ?_⟩
    intro a ha bb hb
    rcases List.mem_singleton.mp hb with rfl
    obtain ⟨q, hq, rfl⟩ := List.mem_map.mp ha
    exact hu q hq
  · intro q hq
    rw [addQueue] at hq
    rcases List.mem_append.mp hq with hq | hq
    · exact lt_trans (hu q hq) (Nat.lt_succ_self _)
    · rcases List.mem_singleton.mp hq with rfl
      exact Nat.lt_succ_self _

theorem addQueue_basis (s : SState n) (D : Deriv n) : (addQueue s D).basis = s.basis := rfl

theorem addQueue_targets (s : SState n) (D : Deriv n) : (addQueue s D).targets = s.targets := rfl

theorem enqueueAll_basis (l : List (Deriv n)) :
    ∀ s : SState n, (enqueueAll s l).basis = s.basis := by
  induction l with
  | nil => intro s; rfl
  | cons D l ih => intro s; rw [enqueueAll, List.foldl_cons, ← enqueueAll, ih]; rfl

theorem enqueueAll_targets (l : List (Deriv n)) :
    ∀ s : SState n, (enqueueAll s l).targets = s.targets := by
  induction l with
  | nil => intro s; rfl
  | cons D l ih => intro s; rw [enqueueAll, List.foldl_cons, ← enqueueAll, ih]; rfl

theorem enqueueAll_qinv (l : List (Deriv n)) :
    ∀ s : SState n, QInv s → QInv (enqueueAll s l) := by
  induction l with
  | nil => intro s h; exact h
  | cons D l ih =>
      intro s h
      rw [enqueueAll, List.foldl_cons, ← enqueueAll]
      exact ih _ (addQueue_qinv h D)

theorem enqueueAll_sinv {s : SState n} (h : SInv s) (l : List (Deriv n)) :
    SInv (enqueueAll s l) := by
  obtain ⟨h1, h2, h3, h4⟩ := h
  refine ⟨?_, ?_, ?_, enqueueAll_qinv l s h4⟩
  · rw [enqueueAll_basis]; exact h1
  · rw [enqueueAll_basis]; exact h2
  · intro i hi
    rw [enqueueAll_targets] at hi
    rw [enqueueAll_basis]
    exact h3 i hi

theorem sstep_inv {s : SState n} (h : SInv s) : ∀ r s', sstep s = (r, s') → SInv s' := by
  intro r s' hstep
  rw [sstep] at hstep
  by_cases hcond : s.queue.isEmpty = true ∨ s.maxIter ≤ s.iter
  · rw [if_pos hcond] at hstep
    obtain ⟨-, rfl⟩ := Prod.mk.inj hstep
    exact h
  · rw [if_neg hcond] at hstep
    obtain ⟨hbi, hbn, htg, hqp, hqu⟩ := h
    cases hpm : popMin s.queue with
    | none =>
        exact absurd (by rw [popMin_eq_none hpm]; rfl) (fun he => hcond (Or.inl he))
    | some t =>
        obtain ⟨pit, rest⟩ := t
        simp only [hpm] at hstep
        have hsub := popMin_sublist hpm
        have hqp₁ : (rest.map QItem.counter).Pairwise (· < ·) :=
          List.Pairwise.sublist (List.Sublist.map _ hsub) hqp
        have hqu₁ : ∀ q ∈ rest, q.counter < s.uniq := fun q hq => hqu q (hsub.subset hq)
        cases hlt : ltD (reduceD s.basis pit.deriv) with
        | none =>
            simp only [hlt] at hstep
            obtain ⟨-, rfl⟩ := Prod.mk.inj hstep
            exact ⟨hbi, hbn, htg, hqp₁, hqu₁⟩
        | some t' =>
            obtain ⟨i, m, c⟩ := t'
            simp only [hlt] at hstep
            have hnorm : ltD (scaleD (1 / c) (reduceD s.basis pit.deriv)) = some (i, m, 1) :=
              ltD_norm hlt
            have hbi' := @binsert_basisInv _ _ hbi (i, m) _ hnorm
            have hbn' := binsert_keysNodup hbn (i, m) (scaleD (1 / c) (reduceD s.basis pit.deriv))
            by_cases hm : m = Mon.unit
            · rw [if_pos hm] at hstep
              by_cases hall : allTargets (Function.update s.targets i true) = true
              · rw [if_pos hall] at hstep
                obtain ⟨-, rfl⟩ := Prod.mk.inj hstep
                refine ⟨hbi', hbn', ?_, hqp₁, hqu₁⟩
                intro j hj
                by_cases hji : j = i
                · subst hji
                  subst hm
                  exact ⟨_, blookup_binsert_self s.basis (j, Mon.unit) _⟩
                · have hj' : s.targets j = true := by
                    have h0 : Function.update s.targets i true j = true := hj
                    rwa [Function.update_noteq hji] at h0
                  exact binsert_presence (htg j hj') _ _
              · rw [if_neg hall] at hstep
                obtain ⟨-, rfl⟩ := Prod.mk.inj hstep
                have hmid : SInv ⟨binsert s.basis (i, m)
                    (scaleD (1 / c) (reduceD s.basis pit.deriv)), rest, s.processed,
                    Function.update s.targets i true, s.uniq, s.iter + 1, s.maxIter⟩ := by
                  refine ⟨hbi', hbn', ?_, hqp₁, hqu₁⟩
                  intro j hj
                  by_cases hji : j = i
                  · subst hji
                    subst hm
                    exact ⟨_, blookup_binsert_self s.basis (j, Mon.unit) _⟩
                  · have hj' : s.targets j = true := by
                      have h0 : Function.update s.targets i true j = true := hj
                      rwa [Function.update_noteq hji] at h0
                    exact binsert_presence (htg j hj') _ _
                obtain ⟨e1, e2, e3, e4, e5⟩ := enqueueAll_sinv hmid
                  (s.processed.map fun old =>
                    bracketD (scaleD (1 / c) (reduceD s.basis pit.deriv)) old)
                exact ⟨e1, e2, e3, e4, e5⟩
            · rw [if_neg hm] at hstep
              obtain ⟨-, rfl⟩ := Prod.mk.inj hstep
              have hmid : SInv ⟨binsert s.basis (i, m)
                  (scaleD (1 / c) (reduceD s.basis pit.deriv)), rest, s.processed,
                  s.targets, s.uniq, s.iter + 1, s.maxIter⟩ := by
                refine ⟨hbi', hbn', ?_, hqp₁, hqu₁⟩
                intro j hj
                exact binsert_presence (htg j hj) _ _
              obtain ⟨e1, e2, e3, e4, e5⟩ := enqueueAll_sinv hmid
                (s.processed.map fun old =>
                  bracketD (scaleD (1 / c) (reduceD s.basis pit.deriv)) old)
              exact ⟨e1, e2, e3, e4, e5⟩

/-- States reachable by continuing `step` calls of one solver run. -/
def SReach (s₀ s : SState n) : Prop :=
  Relation.ReflTransGen (fun a b => sstep a = (true, b)) s₀ s

theorem solverInit_inv {gens : List (Deriv n)} {mi : ℕ} {s₀ : SState n}
    (h : solverInit gens mi = .ok s₀) : SInv s₀ := by
  rw [solverInit] at h
  by_cases hg : gens.isEmpty = true
  · rw [if_pos hg] at h
    exact absurd h (by simp)
  · rw [if_neg hg] at h
    have hs : s₀ = enqueueAll ⟨[], [], [], fun _ => false, 0, 0, mi⟩ gens :=
      (Except.ok.inj h).symm
    subst hs
    refine enqueueAll_sinv ⟨?_, ?_, ?_, ?_, ?_⟩ gens
    · intro kv hkv
      exact absurd hkv (List.not_mem_nil kv)
    · simp [BasisKeysNodup]
    · intro i hi
      exact absurd hi (by simp)
    · simp
    · intro q hq
      exact absurd hq (List.not_mem_nil q)

theorem sreach_inv {s₀ s : SState n} (h0 : SInv s₀) (h : SReach s₀ s) : SInv s := by
  induction h with
  | refl => exact h0
  | tail _ hstep ih => exact sstep_inv ih _ _ hstep

theorem runAux_inv : ∀ (f : ℕ) (s : SState n), SInv s → SInv (runAux f s) := by
  intro f
  induction f with
  | zero => intro s h; exact h
  | succ f ih =>
      intro s h
      cases hs : sstep s with
      | mk cont s' =>
          have hinv' := sstep_inv h cont s' hs
          cases cont with
          | true =>
              have he : runAux (f + 1) s = runAux f s' := by
                simp [runAux, hs]
              rw [he]
              exact ih s' hinv'
          | false =>
              have he : runAux (f + 1) s = s' := by
                simp [runAux, hs]
              rw [he]
              exact hinv'

/-- Solver analogue of `checkFull_targets`: when `run` reports success, every
target key holds a (normalized) entry. -/
theorem runD_targets {gens : List (Deriv n)} {mi : ℕ} {s₀ : SState n}
    (h : solverInit gens mi = .ok s₀) (hr : (runD s₀).1 = true) :
    ∀ i, TargetEntry (runD s₀).2.basis i := by
  have hinv := runAux_inv (s₀.maxIter + 1) s₀ (solverInit_inv h)
  obtain ⟨hbi, -, htg, -⟩ := hinv
  intro i
  have hti := allTargets_iff.mp hr i
  obtain ⟨v, hv⟩ := htg i hti
  exact targetEntry_of_lookup hbi hv

/-! ### Agreement of the two revisions on singleton inputs -/

theorem blookup_nil (k : BKey n) : blookup ([] : Basis n) k = none := rfl

theorem reduceD_nil (D : Deriv n) : reduceD ([] : Basis n) D = D := by
  rw [reduceD]
  cases hlt : ltD D with
  | none => simp [reduceF, hlt]
  | some t =>
      obtain ⟨i, m, c⟩ := t
      simp [reduceF, hlt, blookup]

theorem checkLoop_empty_queue : ∀ (f : ℕ) (s : CState n), s.queue = [] →
    checkLoop f s = (false, s) := by
  intro f s h
  obtain ⟨b, q, pr, tg⟩ := s
  cases f with
  | zero => rfl
  | succ f =>
      simp only at h
      subst h
      simp [checkLoop, cstep]

theorem allTargets_const_false (hn : 1 ≤ n) :
    allTargets (fun _ : Fin n => false) = false := by
  cases hb : allTargets (fun _ : Fin n => false) with
  | false => rfl
  | true => exact absurd (allTargets_iff.mp hb ⟨0, hn⟩) (by simp)

theorem popMin_single (x : QItem n) : popMin [x] = some (x, []) := rfl

/-- Runs stall on an empty queue. -/
theorem runAux_empty_queue : ∀ (g : ℕ) (s : SState n), s.queue = [] → runAux g s = s := by
  intro g s h
  cases g with
  | zero => rfl
  | succ g =>
      have hstep : sstep s = (false, s) := by
        rw [sstep, if_pos (Or.inl (by rw [h]; rfl))]
      simp [runAux, hstep]

/-- One unfolding of the `run` loop. -/
theorem runAux_succ_step {s s' : SState n} {cont : Bool} (h : sstep s = (cont, s')) (f : ℕ) :
    runAux (f + 1) s = if cont then runAux f s' else s' := by
  simp only [runAux, h]

/-- One unfolding of the `check` loop: early return. -/
theorem checkLoop_succ_some {s s' : CState n} {b : Bool} (h : cstep s = (some b, s')) (f : ℕ) :
    checkLoop (f + 1) s = (b, s') := by
  simp only [checkLoop, h]

/-- One unfolding of the `check` loop: continue. -/
theorem checkLoop_succ_none {s s' : CState n} (h : cstep s = (none, s')) (f : ℕ) :
    checkLoop (f + 1) s = checkLoop f s' := by
  simp only [checkLoop, h]

/-- On a one-element generator list the two revisions take the same single
step: pop the only candidate, keep it (the basis is empty), and either record
a pure partial or stall with an empty queue. -/
theorem singleton_agree (hn : 1 ≤ n) (D : Deriv n) (mi : ℕ) :
    solverRun [D] mi = Except.ok (check [D] mi) := by
  have hinit : solverInit [D] mi =
      .ok ⟨[], [⟨degD D, 0, D⟩], [], fun _ => false, 1, 0, mi⟩ := by
    rw [solverInit, if_neg (by simp)]
    rfl
  rw [solverRun, hinit]
  simp only [Except.map]
  refine congrArg Except.ok ?_
  rw [check, if_neg (by simp), checkFull, runD]
  cases mi with
  | zero =>
      have hstep : sstep (⟨[], [⟨degD D, 0, D⟩], [], fun _ => false, 1, 0, 0⟩ : SState n)
          = (false, ⟨[], [⟨degD D, 0, D⟩], [], fun _ => false, 1, 0, 0⟩) := by
        rw [sstep, if_pos (Or.inr (le_refl 0))]
      rw [runAux_succ_step hstep 0, if_neg (by simp), checkLoop]
      exact allTargets_const_false hn
  | succ f =>
      have hne : ¬((([⟨degD D, 0, D⟩] : List (QItem n)).isEmpty = true) ∨ (f + 1 ≤ 0)) := by
        simp
      cases hlt : ltD D with
      | none =>
          have hstep : sstep (⟨[], [⟨degD D, 0, D⟩], [], fun _ => false, 1, 0, f + 1⟩ : SState n)
              = (true, ⟨[], [], [], fun _ => false, 1, 0 + 1, f + 1⟩) := by
            rw [sstep, if_neg hne]
            simp only [popMin_single, reduceD_nil, hlt]
          rw [runAux_succ_step hstep (f + 1), if_pos rfl, runAux_empty_queue (f + 1) _ rfl]
          have hcs : cstep (cinit [D]) = (none, ⟨[], [], [], fun _ => false⟩) := by
            simp only [cinit, cstep, reduceD_nil, hlt]
          rw [checkLoop_succ_none hcs f]
          rw [checkLoop_empty_queue f _ rfl]
          exact allTargets_const_false hn
      | some t =>
          obtain ⟨i, m, c⟩ := t
          by_cases hm : m = Mon.unit
          · subst hm
            by_cases hall : allTargets (Function.update (fun _ : Fin n => false) i true) = true
            · have hstep : sstep
                  (⟨[], [⟨degD D, 0, D⟩], [], fun _ => false, 1, 0, f + 1⟩ : SState n)
                  = (false, ⟨binsert [] (i, Mon.unit) (scaleD (1 / c) D), [], [],
                      Function.update (fun _ => false) i true, 1, 0 + 1, f + 1⟩) := by
                rw [sstep, if_neg hne]
                simp only [popMin_single, reduceD_nil, hlt]
                rw [if_true, if_pos hall]
              rw [runAux_succ_step hstep (f + 1), if_neg (by simp)]
              have hcs : cstep (cinit [D]) = (some true,
                  ⟨binsert [] (i, Mon.unit) (scaleD (1 / c) D), [], [],
                    Function.update (fun _ => false) i true⟩) := by
                simp only [cinit, cstep, reduceD_nil, hlt]
                rw [if_true, if_pos hall]
              rw [checkLoop_succ_some hcs f]
              exact hall
            · have hstep : sstep
                  (⟨[], [⟨degD D, 0, D⟩], [], fun _ => false, 1, 0, f + 1⟩ : SState n)
                  = (true, ⟨binsert [] (i, Mon.unit) (scaleD (1 / c) D), [], [scaleD (1 / c) D],
                      Function.update (fun _ => false) i true, 1, 0 + 1, f + 1⟩) := by
                rw [sstep, if_neg hne]
                simp only [popMin_single, reduceD_nil, hlt]
                rw [if_true, if_neg hall]
                rfl
              rw [runAux_succ_step hstep (f + 1), if_pos rfl, runAux_empty_queue (f + 1) _ rfl]
              have hcs : cstep (cinit [D]) = (none,
                  ⟨binsert [] (i, Mon.unit) (scaleD (1 / c) D), [], [scaleD (1 / c) D],
                    Function.update (fun _ => false) i true⟩) := by
                simp only [cinit, cstep, reduceD_nil, hlt]
                rw [if_true, if_neg hall]
                rfl
              rw [checkLoop_succ_none hcs f]
              rw [checkLoop_empty_queue f _ rfl]
              cases hb : allTargets (Function.update (fun _ : Fin n => false) i true) with
              | true => exact absurd hb hall
              | false => rfl
          · have hstep : sstep
                (⟨[], [⟨degD D, 0, D⟩], [], fun _ => false, 1, 0, f + 1⟩ : SState n)
                = (true, ⟨binsert [] (i, m) (scaleD (1 / c) D), [], [scaleD (1 / c) D],
                    fun _ => false, 1, 0 + 1, f + 1⟩) := by
              rw [sstep, if_neg hne]
              simp only [popMin_single, reduceD_nil, hlt]
              rw [if_neg hm]
              rfl
            rw [runAux_succ_step hstep (f + 1), if_pos rfl, runAux_empty_queue (f + 1) _ rfl]
            have hcs : cstep (cinit [D]) = (none,
                ⟨binsert [] (i, m) (scaleD (1 / c) D), [], [scaleD (1 / c) D],
                  fun _ => false⟩) := by
              simp only [cinit, cstep, reduceD_nil, hlt]
              rw [if_neg hm]
              rfl
            rw [checkLoop_succ_none hcs f]
            rw [checkLoop_empty_queue f _ rfl]
            exact allTargets_const_false hn

/-! ## Bridge to `MvPolynomial`: the term-list model is a faithful picture of
the polynomial ring, used to derive the Jacobi identity for the bracket. -/

/-- Exponent vector as a finitely supported function. -/
noncomputable def toF (m : Mon n) : Fin n →₀ ℕ := Finsupp.equivFunOnFinite.symm m.e

/-- Inverse of `toF`. -/
noncomputable def fromF (d : Fin n →₀ ℕ) : Mon n := ⟨fun i => d i⟩

/-- Interpretation of a term list as a polynomial of the ring. -/
noncomputable def toMv : Poly n → MvPolynomial (Fin n) ℚ
  | [] => 0
  | t :: p => MvPolynomial.monomial (toF t.1) t.2 + toMv p

theorem toF_apply (m : Mon n) (i : Fin n) : toF m i = m.e i := by
  rw [toF]
  exact congrFun (Finsupp.equivFunOnFinite.apply_symm_apply m.e) i

theorem toF_inj {a b : Mon n} (h : toF a = toF b) : a = b := by
  apply Mon.eq_of_e_eq
  funext i
  rw [← toF_apply a i, ← toF_apply b i, h]

theorem toF_add (a b : Mon n) : toF (Mon.add a b) = toF a + toF b := by
  ext i
  rw [Finsupp.add_apply, toF_apply, toF_apply, toF_apply]
  rfl

theorem toF_fromF (d : Fin n →₀ ℕ) : toF (fromF d) = d := by
  ext i
  rw [toF_apply]
  rfl

theorem coeff_toMv (p : Poly n) (m : Mon n) :
    MvPolynomial.coeff (toF m) (toMv p) = coeffP p m := by
  induction p with
  | nil => simp [toMv, coeffP]
  | cons t p ih =>
      rw [toMv, MvPolynomial.coeff_add, ih, coeffP_cons, MvPolynomial.coeff_monomial]
      congr 1
      by_cases h : t.1 = m
      · rw [if_pos (by rw [h]), if_pos h]
      · rw [if_neg (fun he => h (toF_inj he)), if_neg h]

theorem toMv_eq_zero_iff {p : Poly n} : toMv p = 0 ↔ pIsZero p := by
  constructor
  · intro h m
    rw [← coeff_toMv, h]
    simp
  · intro h
    apply MvPolynomial.ext
    intro d
    rw [← toF_fromF d, coeff_toMv, h (fromF d)]
    simp

theorem toMv_append (p q : Poly n) : toMv (p ++ q) = toMv p + toMv q := by
  induction p with
  | nil => simp [toMv]
  | cons t p ih => rw [List.cons_append, toMv, toMv, ih, add_assoc]

theorem toMv_addP (p q : Poly n) : toMv (addP p q) = toMv p + toMv q := toMv_append p q

theorem toMv_smulP (c : ℚ) (p : Poly n) :
    toMv (smulP c p) = MvPolynomial.C c * toMv p := by
  induction p with
  | nil => simp [toMv, smulP]
  | cons t p ih =>
      rw [smulP, List.map_cons, toMv, toMv]
      rw [smulP] at ih
      rw [ih, mul_add, MvPolynomial.C_mul_monomial]

theorem toMv_subP (p q : Poly n) : toMv (subP p q) = toMv p - toMv q := by
  rw [subP, toMv_addP, toMv_smulP]
  rw [show (MvPolynomial.C (-1 : ℚ) : MvPolynomial (Fin n) ℚ) = -1 by rw [map_neg, map_one]]
  ring

theorem toMv_termMul (t : Mon n × ℚ) (q : Poly n) :
    toMv (q.map fun t' => (Mon.add t.1 t'.1, t.2 * t'.2))
      = MvPolynomial.monomial (toF t.1) t.2 * toMv q := by
  induction q with
  | nil => simp [toMv]
  | cons t' q ih =>
      rw [List.map_cons, toMv, toMv, ih, mul_add, MvPolynomial.monomial_mul, toF_add]

theorem toMv_mulP (p q : Poly n) : toMv (mulP p q) = toMv p * toMv q := by
  induction p with
  | nil => simp [mulP, toMv]
  | cons t p ih =>
      rw [mulP, List.flatMap_cons, toMv_append, toMv_termMul, toMv]
      rw [mulP] at ih
      rw [ih, add_mul]

theorem toMv_pderivP (i : Fin n) (p : Poly n) :
    toMv (pderivP i p) = MvPolynomial.pderiv i (toMv p) := by
  induction p with
  | nil => simp [pderivP, toMv]
  | cons t p ih =>
      rw [pderivP, List.map_cons, toMv, toMv, map_add]
      rw [pderivP] at ih
      rw [ih, MvPolynomial.pderiv_monomial]
      have hexp : toF (⟨fun j => if j = i then t.1.e j - 1 else t.1.e j⟩ : Mon n)
          = toF t.1 - Finsupp.single i 1 := by
        ext j
        rw [toF_apply, Finsupp.tsub_apply, toF_apply, Finsupp.single_apply]
        by_cases hj : j = i
        · subst hj
          simp
        · simp [hj, show ¬ i = j from fun h => hj h.symm]
      rw [hexp, toF_apply t.1 i]

/-- The evaluation `Σ aᵢ·∂ᵢ` of a derivation with images `a`, on the ring side. -/
noncomputable def Emv (a : Fin n → MvPolynomial (Fin n) ℚ) (p : MvPolynomial (Fin n) ℚ) :
    MvPolynomial (Fin n) ℚ :=
  ∑ i, a i * MvPolynomial.pderiv i p

theorem toMv_evalD (D : Deriv n) (p : Poly n) :
    toMv (evalD D p) = Emv (fun i => toMv (D i)) (toMv p) := by
  rw [evalD, Emv, Fin.sum_univ_def]
  have key : ∀ l : List (Fin n),
      toMv (l.foldr (fun i acc => addP (mulP (D i) (pderivP i p)) acc) zeroP)
        = (l.map fun i => toMv (D i) * MvPolynomial.pderiv i (toMv p)).sum := by
    intro l
    induction l with
    | nil => simp [toMv, zeroP]
    | cons i l ih =>
        rw [List.foldr_cons, toMv_addP, toMv_mulP, toMv_pderivP, ih, List.map_cons,
          List.sum_cons]
  exact key _

theorem toMv_bracket (A B : Deriv n) (g : Fin n) :
    toMv (bracketD A B g)
      = Emv (fun i => toMv (A i)) (toMv (B g)) - Emv (fun i => toMv (B i)) (toMv (A g)) := by
  rw [bracketD, toMv_subP, toMv_evalD, toMv_evalD]

theorem pderiv_pderiv_comm (i j : Fin n) (p : MvPolynomial (Fin n) ℚ) :
    MvPolynomial.pderiv i (MvPolynomial.pderiv j p)
      = MvPolynomial.pderiv j (MvPolynomial.pderiv i p) := by
  induction p using MvPolynomial.induction_on' with
  | h1 u a =>
      by_cases hij : i = j
      · subst hij; rfl
      · rw [MvPolynomial.pderiv_monomial, MvPolynomial.pderiv_monomial,
          MvPolynomial.pderiv_monomial, MvPolynomial.pderiv_monomial]
        have hexp : (u - Finsupp.single j 1) - Finsupp.single i 1
            = (u - Finsupp.single i 1) - Finsupp.single j 1 := by
          ext k
          rw [Finsupp.tsub_apply, Finsupp.tsub_apply, Finsupp.tsub_apply, Finsupp.tsub_apply]
          omega
        have h1 : (u - Finsupp.single j 1 : Fin n →₀ ℕ) i = u i := by
          rw [Finsupp.tsub_apply, Finsupp.single_apply, if_neg (fun h => hij h.symm),
            Nat.sub_zero]
        have h2 : (u - Finsupp.single i 1 : Fin n →₀ ℕ) j = u j := by
          rw [Finsupp.tsub_apply, Finsupp.single_apply, if_neg hij, Nat.sub_zero]
        rw [hexp, h1, h2]
        congr 1
        ring
  | h2 p q hp hq => rw [map_add, map_add, hp, hq, map_add, map_add]

theorem Emv_sub (a : Fin n → MvPolynomial (Fin n) ℚ) (p q : MvPolynomial (Fin n) ℚ) :
    Emv a (p - q) = Emv a p - Emv a q := by
  rw [Emv, Emv, Emv, ← Finset.sum_sub_distrib]
  refine Finset.sum_congr rfl fun i _ => ?_
  rw [map_sub, mul_sub]

theorem Emv_commutator (a b : Fin n → MvPolynomial (Fin n) ℚ) (p : MvPolynomial (Fin n) ℚ) :
    Emv (fun g => Emv a (b g) - Emv b (a g)) p = Emv a (Emv b p) - Emv b (Emv a p) := by
  have expand : ∀ u v : Fin n → MvPolynomial (Fin n) ℚ,
      Emv u (Emv v p) =
        (∑ i, ∑ j, u i * MvPolynomial.pderiv i (v j) * MvPolynomial.pderiv j p)
          + ∑ i, ∑ j, u i * v j * MvPolynomial.pderiv i (MvPolynomial.pderiv j p) := by
    intro u v
    rw [Emv, Emv, ← Finset.sum_add_distrib]
    refine Finset.sum_congr rfl fun i _ => ?_
    rw [map_sum, Finset.mul_sum, ← Finset.sum_add_distrib]
    refine Finset.sum_congr rfl fun j _ => ?_
    rw [MvPolynomial.pderiv_mul]
    ring
  have swap : (∑ i, ∑ j, a i * b j * MvPolynomial.pderiv i (MvPolynomial.pderiv j p))
      = ∑ i, ∑ j, b i * a j * MvPolynomial.pderiv i (MvPolynomial.pderiv j p) := by
    rw [Finset.sum_comm]
    refine Finset.sum_congr rfl fun i _ => ?_
    refine Finset.sum_congr rfl fun j _ => ?_
    rw [pderiv_pderiv_comm]
    ring
  have lhs_expand : Emv (fun g => Emv a (b g) - Emv b (a g)) p
      = (∑ i, ∑ j, a i * MvPolynomial.pderiv i (b j) * MvPolynomial.pderiv j p)
          - ∑ i, ∑ j, b i * MvPolynomial.pderiv i (a j) * MvPolynomial.pderiv j p := by
    have houter : Emv (fun g => Emv a (b g) - Emv b (a g)) p
        = (∑ j, ∑ i, a i * MvPolynomial.pderiv i (b j) * MvPolynomial.pderiv j p)
            - ∑ j, ∑ i, b i * MvPolynomial.pderiv i (a j) * MvPolynomial.pderiv j p := by
      rw [Emv, ← Finset.sum_sub_distrib]
      refine Finset.sum_congr rfl fun j _ => ?_
      rw [sub_mul, Emv, Emv, Finset.sum_mul, Finset.sum_mul]
    rw [houter]
    congr 1
    · exact Finset.sum_comm
    · exact Finset.sum_comm
  rw [lhs_expand, expand a b, expand b a, swap]
  abel

/-- Specialized commutator: evaluating along the bracket's images is the
commutator of the evaluations. -/
theorem Emv_toMv_bracket (B C : Deriv n) (q : MvPolynomial (Fin n) ℚ) :
    Emv (fun i => toMv (bracketD B C i)) q
      = Emv (fun k => toMv (B k)) (Emv (fun k => toMv (C k)) q)
        - Emv (fun k => toMv (C k)) (Emv (fun k => toMv (B k)) q) := by
  have h : (fun i => toMv (bracketD B C i))
      = fun i => Emv (fun k => toMv (B k)) (toMv (C i))
          - Emv (fun k => toMv (C k)) (toMv (B i)) :=
    funext fun i => toMv_bracket B C i
  rw [h]
  exact Emv_commutator _ _ q

/-- The Jacobi identity on the ring side. -/
theorem jacobi_toMv (A B C : Deriv n) (g : Fin n) :
    toMv (addP (addP (bracketD A (bracketD B C) g) (bracketD B (bracketD C A) g))
      (bracketD C (bracketD A B) g)) = 0 := by
  rw [toMv_addP, toMv_addP]
  rw [toMv_bracket A (bracketD B C) g, toMv_bracket B (bracketD C A) g,
    toMv_bracket C (bracketD A B) g]
  rw [toMv_bracket B C g, toMv_bracket C A g, toMv_bracket A B g]
  rw [Emv_toMv_bracket B C (toMv (A g)), Emv_toMv_bracket C A (toMv (B g)),
    Emv_toMv_bracket A B (toMv (C g))]
  rw [Emv_sub, Emv_sub, Emv_sub]
  abel

/-! ## The Jacobian constructor (`LieDerivation.from_jacobian`) -/

/-- Determinant of a square matrix of ring elements by Laplace expansion
along the first row (the matrix collaborator `Matrix(...).determinant()`);
the fuel equals the row count, which each minor decreases by one. -/
def detFuel : ℕ → List (List (Poly n)) → Poly n
  | _, [] => oneP
  | 0, _ :: _ => zeroP
  | f + 1, row :: rest =>
      (List.range row.length).foldr
        (fun k acc => addP (smulP ((-1 : ℚ) ^ k)
          (mulP (row.getD k zeroP)
            (detFuel f (rest.map fun r => r.take k ++ r.drop (k + 1))))) acc)
        zeroP

/-- `Matrix(sub_matrix_data).determinant()`. -/
def detL (M : List (List (Poly n))) : Poly n := detFuel M.length M

/-- `LieDerivation.from_jacobian(algebra, polynomials)`: validate the
polynomial count, build the full Jacobian row of each polynomial against all
generators, delete column `j` (`row[:j] + row[j+1:]`), and return
`(-1)^(n+j+1) * det`. -/
def fromJacobian (polys : List (Poly n)) : Except String (Deriv n) :=
  if (polys.length : Int) ≠ (n : Int) - 1 then .error "expected n-1 polynomials"
  else
    .ok fun j =>
      let fullJac := polys.map fun p => (List.finRange n).map fun g => pderivP g p
      let subM := fullJac.map fun row => row.take j.val ++ row.drop (j.val + 1)
      smulP ((-1 : ℚ) ^ (n + j.val + 1)) (detL subM)

/-- The spec's formula for the Jacobian construction: `Jⱼ` is the Jacobian
matrix of the supplied polynomials with respect to all generators except
`xⱼ`, and the image of `xⱼ` is `(-1)^(n+j+1)·det(Jⱼ)`. -/
def jacobianSpecImage (polys : List (Poly n)) (j : Fin n) : Poly n :=
  smulP ((-1 : ℚ) ^ (n + j.val + 1))
    (detL (polys.map fun p => ((List.finRange n).eraseIdx j.val).map fun g => pderivP g p))

theorem jacobian_row_eq (p : Poly n) (j : Fin n) :
    ((List.finRange n).map fun g => pderivP g p).take j.val
        ++ ((List.finRange n).map fun g => pderivP g p).drop (j.val + 1)
      = ((List.finRange n).eraseIdx j.val).map fun g => pderivP g p := by
  rw [← List.map_take, ← List.map_drop, ← List.map_append, List.eraseIdx_eq_take_drop_succ]

/-! ## Concrete inputs for the scenarios -/

/-- The monomial `x` in `K[x, y]`. -/
def monX2 : Mon 2 := ⟨fun i => if i = 0 then 1 else 0⟩

/-- `∂/∂x` on `K[x, y]`. -/
def dxD2 : Deriv 2 := fun g => if g = 0 then oneP else zeroP

/-- `x·∂/∂y` on `K[x, y]`. -/
def xdyD2 : Deriv 2 := fun g => if g = 1 then [(monX2, 1)] else zeroP

/-- `∂/∂y` on `K[x, y]`. -/
def dyD2 : Deriv 2 := fun g => if g = 1 then oneP else zeroP

/-- `∂/∂x + ∂/∂y` on `K[x, y]` (both images the constant `1`). -/
def onesD2 : Deriv 2 := fun _ => oneP

/-- The polynomial list `[x]` over `K[x, y]` for the Jacobian construction. -/
def jpolys2 : List (Poly 2) := [[(monX2, 1)]]

/-- The derivation `from_jacobian` produces for `jpolys2`. -/
def jacWitD : Deriv 2 := fun j =>
  smulP ((-1 : ℚ) ^ (2 + j.val + 1))
    (detL ((jpolys2.map fun p => (List.finRange 2).map fun g => pderivP g p).map
      fun row => row.take j.val ++ row.drop (j.val + 1)))

/-- The monomial `x` in `K[x]`. -/
def monX1 : Mon 1 := ⟨fun _ => 1⟩

/-- `x·∂/∂x` on `K[x]`. -/
def xdxD1 : Deriv 1 := fun _ => [(monX1, 1)]

/-- `∂/∂x` on `K[x]`. -/
def dxD1 : Deriv 1 := fun _ => oneP

/-! ## Remaining helper lemmas for the claim theorems -/

theorem tkLe_fst_le {a b : Mon n × Fin n} (h : tkLe a b) : a.1 ≤ b.1 := by
  rcases h with h | rfl
  · rcases h with h | ⟨h, -⟩
    · exact le_of_lt h
    · exact le_of_eq h
  · exact le_refl _

theorem counter_inj_of_pairwise : ∀ {l : List (QItem n)},
    (l.map QItem.counter).Pairwise (· < ·) →
      ∀ a ∈ l, ∀ b ∈ l, a.counter = b.counter → a = b := by
  intro l
  induction l with
  | nil => intro _ a ha; exact absurd ha (List.not_mem_nil a)
  | cons y l ih =>
      intro h a ha b hb hab
      rw [List.map_cons, List.pairwise_cons] at h
      obtain ⟨hy, hl⟩ := h
      rcases List.mem_cons.mp ha with rfl | ha' <;> rcases List.mem_cons.mp hb with rfl | hb'
      · rfl
      · exact absurd (hab ▸ hy _ (List.mem_map_of_mem QItem.counter hb')) (lt_irrefl _)
      · exact absurd (hab ▸ hy _ (List.mem_map_of_mem QItem.counter ha')) (lt_irrefl _)
      · exact ih hl a ha' b hb' hab

/-! ## The claims -/

/-- C1 (counterexample): for the input `[∂x + ∂y, ∂x]` over `K[x, y]` the
`check` run returns true, yet the basis entry recorded at the target key
`(1, 1)` is `∂x + ∂y`: its image on the *other* generator `x` is the nonzero
constant `1`, so the entry is not exactly `∂/∂g₁` and the claimed
"single nonzero component" fails. -/
theorem c1_counterexample :
    check [onesD2, dxD2] 100 = true ∧
      ((blookup (checkFull [onesD2, dxD2] 100).2.basis (1, Mon.unit)).map
        fun v => coeffP (v 0) Mon.unit) = some 1 := by
  constructor
  · with_unfolding_all rfl
  · with_unfolding_all rfl

/-- C1 (amended): if a solver run (`LieBasisSolver.run` or `check`) returns
true then for every generator index `i` the basis holds an entry at the
target key `(i, 1)` whose image on `gᵢ` is the constant `1` and whose every
nonzero coefficient sits at the unit monomial in a component of index `≤ i` —
components of larger index are zero, components of smaller index may be
nonzero constants. -/
theorem c1_target_entries :
    (∀ (gens : List (Deriv n)) (mi : ℕ) (s' : CState n),
        checkFull gens mi = (true, s') → ∀ i, TargetEntry s'.basis i) ∧
    ∀ (gens : List (Deriv n)) (mi : ℕ) (s₀ : SState n),
        solverInit gens mi = .ok s₀ → (runD s₀).1 = true →
          ∀ i, TargetEntry (runD s₀).2.basis i :=
  ⟨fun _ _ _ h => checkFull_targets h, fun _ _ _ h hr => runD_targets h hr⟩

theorem c1_witness : ∀ i, TargetEntry (checkFull [dxD2, xdyD2] 100).2.basis i :=
  c1_target_entries.1 [dxD2, xdyD2] 100 (checkFull [dxD2, xdyD2] 100).2
    (Prod.ext (by with_unfolding_all rfl) rfl)

/-- C2: on a basis satisfying the normalization invariant, each subtraction
`candidate − coefficient × basis[key]` either annihilates the candidate's
leading term or strictly decreases it in the order comparing leading monomial
first and component index second; consequently the inner reduction loop
reaches its exit condition within `basis.length + 1` iterations and is
independent of any larger fuel. -/
theorem c2_reduction_terminates (b : Basis n) (hb : BasisInv b) :
    (∀ (D B : Deriv n) (i : Fin n) (m : Mon n) (c : ℚ), ltD D = some (i, m, c) →
        blookup b (i, m) = some B →
        ltD (subScaledD D B c) = none ∨
          ∃ i' m' c', ltD (subScaledD D B c) = some (i', m', c') ∧ tkLt (m', i') (m, i)) ∧
    ∀ D : Deriv n, RedStopped b (reduceD b D) ∧
      ∀ fuel, b.length + 1 ≤ fuel → reduceF fuel b D = reduceD b D :=
  ⟨fun _ _ _ _ _ hD hL => ltD_subScaled_lt hD (blookup_spec hb hL),
   fun D => reduceD_stopped hb D⟩

theorem c2_witness : RedStopped ([] : Basis 2) (reduceD [] dxD2) :=
  ((c2_reduction_terminates [] (fun kv hkv => absurd hkv (List.not_mem_nil kv))).2 dxD2).1

/-- C3: in every reachable state of a `LieBasisSolver` run the queue's
insertion counters are strictly increasing (they record insertion order), and
when the queue is nonempty the heap pop returns an item of minimal degree;
among items of equal degree every other item has a strictly larger insertion
counter, so the earliest-inserted one is popped (FIFO tie-break). -/
theorem c3_pop_min {gens : List (Deriv n)} {mi : ℕ} {s₀ s : SState n}
    (hinit : solverInit gens mi = .ok s₀) (hreach : SReach s₀ s) :
    (s.queue.map QItem.counter).Pairwise (· < ·) ∧
    (s.queue ≠ [] → ∃ it rest, popMin s.queue = some (it, rest) ∧ it ∈ s.queue ∧
      (∀ x ∈ s.queue, it.degree ≤ x.degree) ∧
      ∀ x ∈ s.queue, x.degree = it.degree → x ≠ it → it.counter < x.counter) := by
  have hinv := sreach_inv (solverInit_inv hinit) hreach
  obtain ⟨-, -, -, hqp, -⟩ := hinv
  refine ⟨hqp, ?_⟩
  intro hne
  obtain ⟨x, xs, hq⟩ := List.exists_cons_of_ne_nil hne
  obtain ⟨it, rest, hpop⟩ := popMin_cons_some x xs
  rw [← hq] at hpop
  have hmin := popMin_min hpop
  have hmem := popMin_mem hpop
  refine ⟨it, rest, hpop, hmem, ?_, ?_⟩
  · intro z hz
    have := hmin z hz
    rw [qltP] at this
    push_neg at this
    exact this.1
  · intro z hz hdeg hzne
    have h1 := hmin z hz
    rw [qltP] at h1
    push_neg at h1
    have h2 : it.counter ≤ z.counter := h1.2 hdeg
    rcases lt_or_eq_of_le h2 with h3 | h3
    · exact h3
    · exact absurd (counter_inj_of_pairwise hqp z hz it hmem h3.symm) hzne

theorem c3_witness :
    (((enqueueAll (⟨[], [], [], fun _ => false, 0, 0, 3⟩ : SState 2) [dxD2]).queue.map
      QItem.counter).Pairwise (· < ·)) :=
  (@c3_pop_min 2 [dxD2] 3 (enqueueAll ⟨[], [], [], fun _ => false, 0, 0, 3⟩ [dxD2])
    (enqueueAll ⟨[], [], [], fun _ => false, 0, 0, 3⟩ [dxD2])
    (by rw [solverInit, if_neg (by simp)]) Relation.ReflTransGen.refl).1

/-- C4 (counterexample): `check` on the empty generator list does not fail
with a validation error — it returns the value `False`. -/
theorem c4_counterexample : check ([] : List (Deriv 1)) 5 = false := rfl

/-- C4 (amended): on an empty generator list `LieBasisSolver.__init__`
raises a validation error before any state is built, while `check` instead
returns `False` immediately. -/
theorem c4_empty_input : ∀ (n mi : ℕ),
    solverInit ([] : List (Deriv n)) mi = .error "generators list must not be empty" ∧
      check ([] : List (Deriv n)) mi = false :=
  fun _ _ => ⟨rfl, rfl⟩

/-- C5: the bracket satisfies the Jacobi identity — for all derivations
`A`, `B`, `C` over a common polynomial algebra,
`[A,[B,C]] + [B,[C,A]] + [C,[A,B]]` evaluates to the zero ring element on
every generator. -/
theorem c5_jacobi : ∀ (A B C : Deriv n) (g : Fin n),
    pIsZero (addP (addP (bracketD A (bracketD B C) g) (bracketD B (bracketD C A) g))
      (bracketD C (bracketD A B) g)) :=
  fun A B C g => toMv_eq_zero_iff.mp (jacobi_toMv A B C g)

/-- C6: `leading_term` is absent exactly when the derivation is zero on every
generator; otherwise it is `(i, m, c)` where `m` is the degrevlex-maximal
leading monomial among the nonzero images, `c` is the leading coefficient of
component `i`, every other component's leading monomial is `≤ m`, and any
component attaining `m` has index `≤ i` (the larger index is selected). -/
theorem c6_leading_term : ∀ (D : Deriv n),
    (ltD D = none ↔ ∀ g, pIsZero (D g)) ∧
    ∀ (i : Fin n) (m : Mon n) (c : ℚ), ltD D = some (i, m, c) →
      lmP (D i) = some m ∧ c = coeffP (D i) m ∧ c ≠ 0 ∧
      (∀ j m', lmP (D j) = some m' → m' ≤ m) ∧
      ∀ j, lmP (D j) = some m → j ≤ i := by
  intro D
  refine ⟨ltD_none_iff, ?_⟩
  intro i m c h
  obtain ⟨hco, hnz, hdom⟩ := ltD_spec h
  have hmax : ∀ μ, coeffP (D i) μ ≠ 0 → μ ≤ m := by
    intro μ hμ
    exact tkLe_fst_le (hdom i μ hμ)
  refine ⟨?_, hco.symm, hnz, ?_, ?_⟩
  · exact lmP_eq_some_of_max (by rw [hco]; exact hnz) hmax
  · intro j m' hm'
    obtain ⟨hc', -⟩ := lmP_spec hm'
    exact tkLe_fst_le (hdom j m' hc')
  · intro j hm'
    obtain ⟨hc', -⟩ := lmP_spec hm'
    rcases hdom j m hc' with hlt | he
    · rcases hlt with hlt | ⟨-, hlt⟩
      · exact absurd hlt (lt_irrefl m)
      · exact le_of_lt hlt
    · exact le_of_eq (congrArg Prod.snd he)

theorem c6_witness : lmP (dyD2 1) = some Mon.unit :=
  (((c6_leading_term dyD2).2 1 Mon.unit 1 (by with_unfolding_all rfl)).1)

/-- C7: `from_jacobian` fails with a validation error unless exactly `n − 1`
polynomials are supplied; on exactly `n − 1` polynomials it returns the
derivation whose image of `xⱼ` is `(−1)^(n+j+1)·det(Jⱼ)` with `Jⱼ` the
Jacobian matrix of the supplied polynomials with respect to all generators
except `xⱼ`. -/
theorem c7_jacobian : ∀ (polys : List (Poly n)),
    (((polys.length : Int) ≠ (n : Int) - 1) →
        fromJacobian polys = .error "expected n-1 polynomials") ∧
    ∀ D, fromJacobian polys = .ok D →
      ((polys.length : Int) = (n : Int) - 1) ∧
      ∀ j : Fin n, D j = jacobianSpecImage polys j := by
  intro polys
  by_cases hlen : (polys.length : Int) ≠ (n : Int) - 1
  · constructor
    · intro _
      rw [fromJacobian, if_pos hlen]
    · intro D hD
      rw [fromJacobian, if_pos hlen] at hD
      exact absurd hD (by simp)
  · constructor
    · intro h
      exact absurd h hlen
    · intro D hD
      rw [fromJacobian, if_neg hlen] at hD
      refine ⟨not_not.mp hlen, ?_⟩
      have hD' := Except.ok.inj hD
      intro j
      rw [← hD']
      simp only
      rw [jacobianSpecImage]
      congr 1
      rw [List.map_map]
      refine congrArg detL ?_
      refine List.map_congr_left fun p _ => ?_
      exact jacobian_row_eq p j

theorem c7_witness : jacWitD 0 = jacobianSpecImage jpolys2 0 :=
  ((c7_jacobian jpolys2).2 jacWitD (by with_unfolding_all rfl)).2 0

/-- C8: starting from the initial empty basis, every reachable state of both
revisions keeps at most one basis entry per (component, monomial) key, and
every stored derivation is normalized with leading term exactly its key and
leading coefficient `1`; each further step preserves this. -/
theorem c8_basis_invariant :
    (∀ (gens : List (Deriv n)) (s : CState n), CReach gens s →
        (BasisInv s.basis ∧ BasisKeysNodup s.basis) ∧
        ∀ r s', cstep s = (r, s') → BasisInv s'.basis ∧ BasisKeysNodup s'.basis) ∧
    ∀ (gens : List (Deriv n)) (mi : ℕ) (s₀ s : SState n),
        solverInit gens mi = .ok s₀ → SReach s₀ s →
        (BasisInv s.basis ∧ BasisKeysNodup s.basis) ∧
        ∀ r s', sstep s = (r, s') → BasisInv s'.basis ∧ BasisKeysNodup s'.basis := by
  constructor
  · intro gens s hreach
    have hinv := creach_inv hreach
    refine ⟨⟨hinv.1, hinv.2.1⟩, ?_⟩
    intro r s' hstep
    have := (cstep_inv hinv r s' hstep).1
    exact ⟨this.1, this.2.1⟩
  · intro gens mi s₀ s hinit hreach
    have hinv := sreach_inv (solverInit_inv hinit) hreach
    refine ⟨⟨hinv.1, hinv.2.1⟩, ?_⟩
    intro r s' hstep
    have := sstep_inv hinv r s' hstep
    exact ⟨this.1, this.2.1⟩

theorem c8_witness :
    BasisInv (cinit [dxD2]).basis ∧ BasisKeysNodup (cinit [dxD2]).basis :=
  (c8_basis_invariant.1 [dxD2] (cinit [dxD2]) Relation.ReflTransGen.refl).1

/-- C9: for the generators `[∂/∂x, x·∂/∂y]` over `K[x, y]`, the bracket of
the two is exactly `∂/∂y` (it agrees with `∂/∂y` coefficientwise on every
generator), and the completion procedure returns true. -/
theorem c9_scenario :
    (∀ g : Fin 2, pIsZero (subP (bracketD dxD2 xdyD2 g) (dyD2 g))) ∧
      check [dxD2, xdyD2] 100 = true := by
  constructor
  · have h : ∀ g : Fin 2, pZeroB (subP (bracketD dxD2 xdyD2 g) (dyD2 g)) = true := by
      with_unfolding_all decide
    exact fun g => pZeroB_iff.mp (h g)
  · with_unfolding_all rfl

/-- C10 (counterexample): the two revisions disagree — for the input
`[x·∂/∂x, ∂/∂x]` over `K[x]` with budget 1, FIFO `check` spends its only
iteration on `x·∂/∂x` and returns false, while the priority-queue solver
pops the degree-0 candidate `∂/∂x` first and returns true. -/
theorem c10_counterexample :
    check [xdxD1, dxD1] 1 = false ∧ solverRun [xdxD1, dxD1] 1 = Except.ok true := by
  constructor
  · with_unfolding_all rfl
  · with_unfolding_all rfl

/-- C10 (amended): the two revisions agree on every one-element generator
list over an algebra with at least one generator, for every iteration
budget; already two-element lists (and the zero-generator algebra) separate
them. -/
theorem c10_singleton_agree : ∀ {n : ℕ}, 1 ≤ n → ∀ (D : Deriv n) (mi : ℕ),
    solverRun [D] mi = Except.ok (check [D] mi) :=
  fun hn D mi => singleton_agree hn D mi

theorem c10_witness : solverRun [dxD1] 5 = Except.ok (check [dxD1] 5) :=
  c10_singleton_agree (by decide) dxD1 5

end LieCheck
